import Mathlib

/-
Verification of the WikiToolkit identity resolver and redirect cache
(the PageMaps object exercised by src/demo_redirects.ipynb).

The repository sources contain only the demo notebook; the PageMaps
implementation itself (the wikitoolkit package) is not under src/, so the
resolver is modelled from the specification, with the concrete mapping
states recorded in the notebook outputs used to pin down the merge
behaviour (for example, after a harvest the titles redirect map holds one
entry per alias including the canonical title itself: 303 entries for 303
aliases).

Dictionaries are embedded as association lists with a first-match lookup;
`ins` is dictionary assignment (overwrite or append) and `insA` inserts
only when the key is absent.
-/

set_option autoImplicit false

abbrev Title := String
abbrev PageId := Nat

section AssocList

variable {α β : Type} [DecidableEq α]

/-- First-match lookup in an association list, the embedding of dictionary
access. -/
def look : List (α × β) → α → Option β
  | [], _ => none
  | p :: l, k => if p.1 = k then some p.2 else look l k

/-- Dictionary assignment: overwrite the first entry with the given key, or
append the pair when the key is absent. -/
def ins : List (α × β) → α → β → List (α × β)
  | [], k, v => [(k, v)]
  | p :: l, k, v => if p.1 = k then (k, v) :: l else p :: ins l k v

/-- Insert only when the key is absent, the embedding of the back-fill
writes the spec describes as happening "if not already present". -/
def insA : List (α × β) → α → β → List (α × β)
  | [], k, v => [(k, v)]
  | p :: l, k, v => if p.1 = k then p :: l else p :: insA l k v

@[simp] theorem look_nil (k : α) : look ([] : List (α × β)) k = none := rfl

@[simp] theorem look_cons (p : α × β) (l : List (α × β)) (k : α) :
    look (p :: l) k = if p.1 = k then some p.2 else look l k := rfl

theorem ins_nil (k : α) (v : β) : ins ([] : List (α × β)) k v = [(k, v)] := rfl

theorem ins_cons (p : α × β) (l : List (α × β)) (k : α) (v : β) :
    ins (p :: l) k v = if p.1 = k then (k, v) :: l else p :: ins l k v := rfl

theorem insA_nil (k : α) (v : β) : insA ([] : List (α × β)) k v = [(k, v)] := rfl

theorem insA_cons (p : α × β) (l : List (α × β)) (k : α) (v : β) :
    insA (p :: l) k v = if p.1 = k then p :: l else p :: insA l k v := rfl

theorem look_ins (l : List (α × β)) (k k' : α) (v : β) :
    look (ins l k v) k' = if k' = k then some v else look l k' := by
  induction l with
  | nil =>
    rw [ins_nil, look_cons]
    by_cases hk : k = k'
    · simp [hk]
    · have hk2 : ¬ k' = k := fun h => hk h.symm
      simp [hk, hk2]
  | cons p t ih =>
    rw [ins_cons]
    by_cases hpk : p.1 = k
    · rw [if_pos hpk, look_cons, look_cons]
      by_cases hk : k = k'
      · simp [hk, hpk.trans hk]
      · have hk2 : ¬ k' = k := fun h => hk h.symm
        simp [hk, hk2, hpk.trans]
    · rw [if_neg hpk, look_cons, ih, look_cons]
      by_cases hpk' : p.1 = k'
      · have hne : ¬ k' = k := fun h => hpk (by rw [hpk', h])
        simp [hpk', hne]
      · simp [hpk']

theorem look_insA (l : List (α × β)) (k k' : α) (v : β) :
    look (insA l k v) k' =
      if k' = k then some ((look l k).getD v) else look l k' := by
  induction l with
  | nil =>
    rw [insA_nil, look_cons]
    by_cases hk : k = k'
    · simp [hk]
    · have hk2 : ¬ k' = k := fun h => hk h.symm
      simp [hk, hk2]
  | cons p t ih =>
    rw [insA_cons]
    by_cases hpk : p.1 = k
    · rw [if_pos hpk, look_cons, look_cons, if_pos hpk]
      by_cases hk : k' = k
      · have hpk' : p.1 = k' := hpk.trans hk.symm
        simp [hk, hpk']
      · have hpk' : ¬ p.1 = k' := fun h => hk (h.symm.trans hpk)
        simp [hk, hpk']
    · rw [if_neg hpk, look_cons, ih, look_cons]
      by_cases hpk' : p.1 = k'
      · have hne : ¬ k' = k := fun h => hpk (by rw [hpk', h])
        simp [hpk', hne]
      · by_cases hk : k' = k
        · simp [hpk', hk, look_cons, hpk]
        · simp [hpk', hk]

theorem ins_of_look_eq {l : List (α × β)} {k : α} {v : β}
    (h : look l k = some v) : ins l k v = l := by
  induction l with
  | nil => simp [look] at h
  | cons p t ih =>
    by_cases hpk : p.1 = k
    · rw [look_cons, if_pos hpk] at h
      have hp : p = (k, v) := by
        cases p with
        | mk a b => simp_all
      rw [ins_cons, if_pos hpk, hp]
    · rw [look_cons, if_neg hpk] at h
      rw [ins_cons, if_neg hpk, ih h]

theorem insA_of_isSome {l : List (α × β)} {k : α} {v : β}
    (h : (look l k).isSome) : insA l k v = l := by
  induction l with
  | nil => simp [look] at h
  | cons p t ih =>
    by_cases hpk : p.1 = k
    · rw [insA_cons, if_pos hpk]
    · rw [look_cons, if_neg hpk] at h
      rw [insA_cons, if_neg hpk, ih h]

theorem look_mem {l : List (α × β)} {k : α} {v : β}
    (h : look l k = some v) : (k, v) ∈ l := by
  induction l with
  | nil => simp [look] at h
  | cons p t ih =>
    by_cases hpk : p.1 = k
    · rw [look_cons, if_pos hpk] at h
      have hp : p = (k, v) := by
        cases p with
        | mk a b => simp_all
      rw [hp]
      exact List.mem_cons_self _ _
    · rw [look_cons, if_neg hpk] at h
      exact List.mem_cons_of_mem _ (ih h)

theorem mem_ins {l : List (α × β)} {k : α} {v : β} {q : α × β}
    (h : q ∈ ins l k v) : q ∈ l ∨ q = (k, v) := by
  induction l with
  | nil =>
    rw [ins_nil] at h
    right
    simpa using h
  | cons p t ih =>
    by_cases hpk : p.1 = k
    · rw [ins_cons, if_pos hpk] at h
      rcases List.mem_cons.mp h with h | h
      · right; exact h
      · left; exact List.mem_cons_of_mem _ h
    · rw [ins_cons, if_neg hpk] at h
      rcases List.mem_cons.mp h with h | h
      · left; rw [h]; exact List.mem_cons_self _ _
      · rcases ih h with h' | h'
        · left; exact List.mem_cons_of_mem _ h'
        · right; exact h'

theorem mem_insA {l : List (α × β)} {k : α} {v : β} {q : α × β}
    (h : q ∈ insA l k v) : q ∈ l ∨ q = (k, v) := by
  induction l with
  | nil =>
    rw [insA_nil] at h
    right
    simpa using h
  | cons p t ih =>
    by_cases hpk : p.1 = k
    · rw [insA_cons, if_pos hpk] at h
      left; exact h
    · rw [insA_cons, if_neg hpk] at h
      rcases List.mem_cons.mp h with h | h
      · left; rw [h]; exact List.mem_cons_self _ _
      · rcases ih h with h' | h'
        · left; exact List.mem_cons_of_mem _ h'
        · right; exact h'

theorem look_isSome_ins (l : List (α × β)) (k k' : α) (v : β)
    (h : (look l k').isSome) : (look (ins l k v) k').isSome := by
  rw [look_ins]
  split <;> simp_all

theorem look_isSome_insA (l : List (α × β)) (k k' : α) (v : β)
    (h : (look l k').isSome) : (look (insA l k v) k').isSome := by
  rw [look_insA]
  split <;> simp_all

theorem look_insA_of_some {l : List (α × β)} {k k' : α} {v w : β}
    (h : look l k' = some w) : look (insA l k v) k' = some w := by
  rw [look_insA]
  split
  · next he => subst he; simp [h]
  · exact h

end AssocList

section Nub

variable {α : Type} [DecidableEq α]

/-- Deduplication keeping first occurrences, the embedding of the input
deduplication the spec requires before processing. -/
def nubAux : List α → List α → List α
  | _, [] => []
  | seen, a :: t => if a ∈ seen then nubAux seen t else a :: nubAux (a :: seen) t

/-- Deduplicate a list, keeping the first occurrence of each element. -/
def nub (l : List α) : List α := nubAux [] l

theorem mem_nubAux {l : List α} {seen : List α} {a : α} :
    a ∈ nubAux seen l ↔ a ∈ l ∧ a ∉ seen := by
  induction l generalizing seen with
  | nil => simp [nubAux]
  | cons b t ih =>
    by_cases hb : b ∈ seen
    · simp only [nubAux, if_pos hb, ih, List.mem_cons]
      constructor
      · rintro ⟨h1, h2⟩; exact ⟨Or.inr h1, h2⟩
      · rintro ⟨h1 | h1, h2⟩
        · exact absurd (h1 ▸ hb) h2
        · exact ⟨h1, h2⟩
    · simp only [nubAux, if_neg hb, List.mem_cons, ih]
      constructor
      · rintro (h | ⟨h1, h2⟩)
        · exact ⟨Or.inl h, h ▸ hb⟩
        · simp only [List.mem_cons, not_or] at h2
          exact ⟨Or.inr h1, h2.2⟩
      · rintro ⟨h1 | h1, h2⟩
        · exact Or.inl h1
        · by_cases hab : a = b
          · exact Or.inl hab
          · exact Or.inr ⟨h1, by simp [hab, h2]⟩

theorem mem_nub {l : List α} {a : α} : a ∈ nub l ↔ a ∈ l := by
  simp [nub, mem_nubAux]

theorem nubAux_nodup (seen : List α) (l : List α) : (nubAux seen l).Nodup := by
  induction l generalizing seen with
  | nil => simp [nubAux]
  | cons b t ih =>
    by_cases hb : b ∈ seen
    · simpa [nubAux, hb] using ih seen
    · simp only [nubAux, if_neg hb, List.nodup_cons]
      refine ⟨fun hmem => ?_, ih (b :: seen)⟩
      exact (mem_nubAux.mp hmem).2 (List.mem_cons_self _ _)

theorem nub_nodup (l : List α) : (nub l).Nodup := nubAux_nodup [] l

end Nub

/-- Modelled from the spec: the per-title record returned by the upstream
batched page-info query. The wikitoolkit PageMaps implementation is not
part of the repository sources (only the demo notebook calling it is), so
the upstream contract follows section 6 of the spec: for a queried title
the service reports its normalized form, the page ID of the normalized
title, and, when the normalized title is a redirect, the canonical title
and canonical page ID (multi-hop already resolved). -/
structure TitleInfo where
  norm : Title
  pageid : PageId
  canonical : Option (Title × PageId)
deriving DecidableEq

/-- Modelled from the spec: the per-page-ID record returned by the upstream
batched page-info query keyed by ID: the title owning the ID and, when it
is a redirect, the canonical title and page ID. -/
structure IdInfo where
  title : Title
  canonical : Option (Title × PageId)
deriving DecidableEq

/-- Modelled from the spec: the upstream query transport. `harvest` is the
batched redirects-to-page query for a canonical page ID; it returns the
canonical title together with all (redirect title, redirect page ID) pairs
targeting the page, or `none` when pagination was interrupted before the
final page (section 7, partial harvest). -/
structure Upstream where
  infoByTitle : Title → Option TitleInfo
  infoById : PageId → Option IdInfo
  harvest : PageId → Option (Title × List (Title × PageId))

/-- Modelled from the spec: the five/six mappings owned by the resolver
(the spec table lists six attributes; the demo notebook names the same
six). All start empty at construction. -/
@[ext] structure PageMaps where
  titles_redirect_map : List (Title × Title)
  pageids_redirect_map : List (PageId × PageId)
  norm_map : List (Title × Title)
  id_map : List (Title × PageId)
  collected_title_redirects : List (Title × List Title)
  collected_pageid_redirects : List (PageId × List PageId)
deriving DecidableEq

/-- The fresh resolver: all mappings empty. -/
def emptyPM : PageMaps := ⟨[], [], [], [], [], []⟩

/-- One upstream query, used to count and classify upstream traffic:
page-info by title, page-info by ID, or a redirect harvest for a canonical
page ID. -/
inductive Query where
  | infoT : Title → Query
  | infoI : PageId → Query
  | harv : PageId → Query
deriving DecidableEq

/-- The canonical title reported for a queried title: the redirect target
when the upstream reports one, otherwise the normalized title itself. -/
def tcanon (i : TitleInfo) : Title :=
  match i.canonical with
  | some pr => pr.1
  | none => i.norm

/-- The canonical page ID reported for a queried page ID: the redirect
target when the upstream reports one, otherwise the ID itself. -/
def icanon (p : PageId) (j : IdInfo) : PageId :=
  match j.canonical with
  | some pr => pr.2
  | none => p

/-- Modelled from the spec: merging one page-info response for a title
into the mappings (section 4.1 step 3): record the normalization change in
norm_map when reported, record the redirect in titles_redirect_map and
pageids_redirect_map when reported, record the canonical title-ID pair and
the normalized title-ID pair in id_map; a not-found response changes
nothing. -/
def mergeTitle (u : Upstream) (pm : PageMaps) (t : Title) : PageMaps :=
  match u.infoByTitle t with
  | none => pm
  | some i =>
    let pm1 := if i.norm = t then pm
      else { pm with norm_map := ins pm.norm_map t i.norm }
    match i.canonical with
    | some (c, cid) =>
      { pm1 with
          titles_redirect_map := ins pm1.titles_redirect_map i.norm c
          pageids_redirect_map := ins pm1.pageids_redirect_map i.pageid cid
          id_map := ins (ins pm1.id_map i.norm i.pageid) c cid }
    | none => { pm1 with id_map := ins pm1.id_map i.norm i.pageid }

/-- Modelled from the spec: merging one page-info response for a page ID,
the ID-keyed analogue of mergeTitle (IDs have no normalization step). -/
def mergeId (u : Upstream) (pm : PageMaps) (p : PageId) : PageMaps :=
  match u.infoById p with
  | none => pm
  | some j =>
    match j.canonical with
    | some (c, cid) =>
      { pm with
          titles_redirect_map := ins pm.titles_redirect_map j.title c
          pageids_redirect_map := ins pm.pageids_redirect_map p cid
          id_map := ins (ins pm.id_map j.title p) c cid }
    | none => { pm with id_map := ins pm.id_map j.title p }

/-- Modelled from the spec: back-filling one discovered alias (title, ID)
of the canonical page (c, cid) into the three point mappings, each only if
not already present (section 4.1, get_redirects step 5). -/
def backfill (c : Title) (cid : PageId) (pm : PageMaps) (pr : Title × PageId) : PageMaps :=
  { pm with
      titles_redirect_map := insA pm.titles_redirect_map pr.1 c
      pageids_redirect_map := insA pm.pageids_redirect_map pr.2 cid
      id_map := insA pm.id_map pr.1 pr.2 }

/-- Modelled from the spec: merging one completed redirect harvest: the
alias list including the canonical page itself is written to both
collected mappings, and every alias (the canonical pair included, matching
the demo notebook counts where the titles redirect map holds one entry per
alias, canonical titles included) is back-filled. An interrupted harvest
(`none`) writes nothing, leaving the canonical entry absent. -/
def mergeHarvest (u : Upstream) (pm : PageMaps) (cid : PageId) : PageMaps :=
  match u.harvest cid with
  | none => pm
  | some (c, pairs) =>
    let al := (c, cid) :: pairs
    let pm1 := { pm with
      collected_title_redirects := ins pm.collected_title_redirects c (al.map Prod.fst)
      collected_pageid_redirects := ins pm.collected_pageid_redirects cid (al.map Prod.snd) }
    al.foldl (backfill c cid) pm1

/-- Modelled from the spec: whether a title counts as already resolved
(section 4.1 step 1). The spec partitions on id_map keys; since only
normalized titles are recorded in id_map, an input is resolved when it or
its recorded normalization is an id_map key (a literal id_map-only reading
would re-query normalized inputs forever, contradicting the idempotence
the spec states for fix_redirects). -/
def resolvedT (pm : PageMaps) (t : Title) : Bool :=
  (look pm.id_map t).isSome ||
    (match look pm.norm_map t with
     | some n => (look pm.id_map n).isSome
     | none => false)

/-- Modelled from the spec: whether a page ID counts as already resolved:
it appears among the id_map values (id_map keys are titles, so the ID-side
membership test is on values). -/
def resolvedI (pm : PageMaps) (p : PageId) : Bool :=
  pm.id_map.any (fun q => decide (q.2 = p))

/-- Modelled from the spec: fix_redirects. Inputs are deduplicated,
partitioned against the current mappings, and the unresolved ones are
queried upstream and merged in order; returns the new state and the list
of upstream queries issued. -/
def fix_redirects (u : Upstream) (pm : PageMaps)
    (titles : List Title) (pageids : List PageId) : PageMaps × List Query :=
  let tq := (nub titles).filter (fun t => !(resolvedT pm t))
  let iq := (nub pageids).filter (fun p => !(resolvedI pm p))
  let pm1 := tq.foldl (mergeTitle u) pm
  let pm2 := iq.foldl (mergeId u) pm1
  (pm2, tq.map Query.infoT ++ iq.map Query.infoI)

/-- The recorded normalization of a title, the title itself when none is
recorded. -/
def normOf (pm : PageMaps) (t : Title) : Title :=
  match look pm.norm_map t with
  | some n => n
  | none => t

/-- The canonical title currently recorded for an input title: normalize,
then follow titles_redirect_map, falling back to the title itself
(section 4.1, get_redirects step 2). -/
def canonTitle (pm : PageMaps) (t : Title) : Title :=
  match look pm.titles_redirect_map (normOf pm t) with
  | some c => c
  | none => normOf pm t

/-- The canonical page ID currently recorded for an input page ID. -/
def canonId (pm : PageMaps) (p : PageId) : PageId :=
  match look pm.pageids_redirect_map p with
  | some q => q
  | none => p

/-- Modelled from the spec: get_redirects. First run the fix_redirects
procedure on the inputs, then compute each canonical identity, skip those
whose redirect set is already collected, and harvest the missing ones,
merging each completed harvest; returns the new state and all upstream
queries issued (the fix queries followed by one harvest query per missing
canonical page). -/
def get_redirects (u : Upstream) (pm : PageMaps)
    (titles : List Title) (pageids : List PageId) : PageMaps × List Query :=
  let fr := fix_redirects u pm titles pageids
  let pm1 := fr.1
  let tcs := (nub ((nub titles).map (canonTitle pm1))).filter
    (fun c => (look pm1.collected_title_redirects c).isNone)
  let tcids := tcs.filterMap (fun c => look pm1.id_map c)
  let ics := (nub pageids).map (canonId pm1)
  let missing := (nub (tcids ++ ics)).filter
    (fun cid => (look pm1.collected_pageid_redirects cid).isNone)
  let pm2 := missing.foldl (mergeHarvest u) pm1
  (pm2, fr.2 ++ missing.map Query.harv)

/-- Modelled from the spec: the caller-facing fix_redirects, which fails
fast with an invalid-argument error when neither titles nor page IDs are
supplied (section 7, malformed input), before issuing any upstream
query. -/
def fix_redirects_checked (u : Upstream) (pm : PageMaps)
    (titles : List Title) (pageids : List PageId) :
    Except String (PageMaps × List Query) :=
  if titles = [] ∧ pageids = [] then
    Except.error "invalid argument: no titles or pageids supplied"
  else
    Except.ok (fix_redirects u pm titles pageids)

/-- Modelled from the spec: the caller-facing get_redirects with the same
malformed-input check as fix_redirects_checked. -/
def get_redirects_checked (u : Upstream) (pm : PageMaps)
    (titles : List Title) (pageids : List PageId) :
    Except String (PageMaps × List Query) :=
  if titles = [] ∧ pageids = [] then
    Except.error "invalid argument: no titles or pageids supplied"
  else
    Except.ok (get_redirects u pm titles pageids)

/-- One caller-initiated operation on the resolver. -/
inductive Call where
  | fix (titles : List Title) (pageids : List PageId)
  | get (titles : List Title) (pageids : List PageId)

/-- Apply one operation to the resolver state. -/
def applyCall (u : Upstream) (pm : PageMaps) : Call → PageMaps
  | Call.fix ts ps => (fix_redirects u pm ts ps).1
  | Call.get ts ps => (get_redirects u pm ts ps).1

/-- Run a sequence of operations from a state. -/
def runCalls (u : Upstream) (pm : PageMaps) (cs : List Call) : PageMaps :=
  cs.foldl (applyCall u) pm

/-- The resolver states reachable from a fresh resolver by any sequence of
fix_redirects and get_redirects calls against a fixed upstream. -/
inductive Reach (u : Upstream) : PageMaps → Prop where
  | start : Reach u emptyPM
  | fixStep {pm : PageMaps} (ts : List Title) (ps : List PageId) :
      Reach u pm → Reach u (fix_redirects u pm ts ps).1
  | getStep {pm : PageMaps} (ts : List Title) (ps : List PageId) :
      Reach u pm → Reach u (get_redirects u pm ts ps).1

/-- Build an upstream transport from finite tables, used for the concrete
scenarios of the demo notebook. -/
def mkUp (tT : List (Title × TitleInfo)) (tI : List (PageId × IdInfo))
    (tH : List (PageId × (Title × List (Title × PageId)))) : Upstream :=
  ⟨fun t => look tT t, fun p => look tI p, fun cid => look tH cid⟩

/-- The page-info-by-title table of the demo scenario: uk normalizes to
Uk, Uk (ID 641291) and UK (ID 62029) redirect to United Kingdom
(ID 31717), and Solo (ID 900) is a canonical page with no redirects. -/
def demoTitleTable : List (Title × TitleInfo) :=
  [ ("uk", ⟨"Uk", 641291, some ("United Kingdom", 31717)⟩)
  , ("Uk", ⟨"Uk", 641291, some ("United Kingdom", 31717)⟩)
  , ("UK", ⟨"UK", 62029, some ("United Kingdom", 31717)⟩)
  , ("United Kingdom", ⟨"United Kingdom", 31717, none⟩)
  , ("Solo", ⟨"Solo", 900, none⟩) ]

/-- The page-info-by-ID table of the demo scenario. -/
def demoIdTable : List (PageId × IdInfo) :=
  [ (641291, ⟨"Uk", some ("United Kingdom", 31717)⟩)
  , (62029, ⟨"UK", some ("United Kingdom", 31717)⟩)
  , (31717, ⟨"United Kingdom", none⟩)
  , (900, ⟨"Solo", none⟩) ]

/-- The redirect-harvest table of the demo scenario. -/
def demoHarvestTable : List (PageId × (Title × List (Title × PageId))) :=
  [ (31717, ("United Kingdom", [("Uk", 641291), ("UK", 62029)]))
  , (900, ("Solo", [])) ]

/-- The demo upstream: consistent, with the uk/Uk/United Kingdom redirect
chain of the notebook. -/
def demoU : Upstream := mkUp demoTitleTable demoIdTable demoHarvestTable

/-- A demo upstream whose redirect harvests are all interrupted before
their final page (every harvest returns none). -/
def demoUCut : Upstream := mkUp demoTitleTable demoIdTable []

theorem look_eq_none_not_mem {α β : Type} [DecidableEq α]
    {l : List (α × β)} {k : α} (h : look l k = none) (v : β) : (k, v) ∉ l := by
  induction l with
  | nil => simp
  | cons p t ih =>
    by_cases hpk : p.1 = k
    · rw [look_cons, if_pos hpk] at h
      simp at h
    · rw [look_cons, if_neg hpk] at h
      intro hmem
      rcases List.mem_cons.mp hmem with hq | hq
      · exact hpk (by rw [← hq])
      · exact ih h hq

theorem look_ins_forced {α β : Type} [DecidableEq α] [DecidableEq β]
    {l : List (α × β)} {k : α} {v : β}
    (hF : ∀ w, look l k = some w → w = v) {k' : α} {v' : β}
    (h : look l k' = some v') : look (ins l k v) k' = some v' := by
  rw [look_ins]
  split
  · next he =>
    subst he
    rw [hF v' h]
  · exact h

/-- Entry soundness for norm_map: the upstream reports exactly this
normalization for the key. -/
def normEntryOK (u : Upstream) (t n : Title) : Prop :=
  ∃ i, u.infoByTitle t = some i ∧ i.norm = n

/-- Entry soundness for titles_redirect_map: the key is a normalized title
and the value is its upstream canonical title. -/
def tredEntryOK (u : Upstream) (t c : Title) : Prop :=
  ∃ i, u.infoByTitle t = some i ∧ i.norm = t ∧ tcanon i = c

/-- Entry soundness for pageids_redirect_map: the value is the upstream
canonical page ID of the key. -/
def predEntryOK (u : Upstream) (p q : PageId) : Prop :=
  ∃ j, u.infoById p = some j ∧ icanon p j = q

/-- Entry soundness for id_map: the key is a normalized title with this
page ID, and when it is a redirect its resolution is also recorded
(closure: the redirect entry, the page ID redirect entry, and the
canonical pair are all present). -/
def idEntryOK (u : Upstream) (pm : PageMaps) (t : Title) (p : PageId) : Prop :=
  ∃ i, u.infoByTitle t = some i ∧ i.norm = t ∧ i.pageid = p ∧
    ∀ pr, i.canonical = some pr →
      look pm.titles_redirect_map t = some pr.1 ∧
      look pm.pageids_redirect_map p = some pr.2 ∧
      look pm.id_map pr.1 = some pr.2

/-- Entry soundness for collected_title_redirects: the canonical title has
its page ID recorded, the entry is exactly the completed harvest (the
canonical pair first), the ID-side entry is present and parallel, and
every alias pair is recorded in id_map. -/
def collTEntryOK (u : Upstream) (pm : PageMaps) (c : Title) (L : List Title) : Prop :=
  ∃ cid hr, look pm.id_map c = some cid ∧ u.harvest cid = some hr ∧
    hr.1 = c ∧ L = ((c, cid) :: hr.2).map Prod.fst ∧
    look pm.collected_pageid_redirects cid
      = some (((c, cid) :: hr.2).map Prod.snd) ∧
    (∀ pr ∈ (c, cid) :: hr.2, look pm.id_map pr.1 = some pr.2)

/-- Entry soundness for collected_pageid_redirects: the entry is exactly
the completed harvest for this canonical page ID and the title-side entry
is present and parallel. -/
def collPEntryOK (u : Upstream) (pm : PageMaps) (cid : PageId) (M : List PageId) : Prop :=
  ∃ hr, u.harvest cid = some hr ∧ M = ((hr.1, cid) :: hr.2).map Prod.snd ∧
    look pm.collected_title_redirects hr.1
      = some (((hr.1, cid) :: hr.2).map Prod.fst)

/-- The resolver state agrees with the upstream: every entry of every
mapping records exactly what the upstream reports, redirect entries are
closed under resolution, and collected entries are completed harvests. -/
structure MapsInv (u : Upstream) (pm : PageMaps) : Prop where
  norm_ok : ∀ q ∈ pm.norm_map, normEntryOK u q.1 q.2
  tred_ok : ∀ q ∈ pm.titles_redirect_map, tredEntryOK u q.1 q.2
  pred_ok : ∀ q ∈ pm.pageids_redirect_map, predEntryOK u q.1 q.2
  id_ok : ∀ q ∈ pm.id_map, idEntryOK u pm q.1 q.2
  collT_ok : ∀ q ∈ pm.collected_title_redirects, collTEntryOK u pm q.1 q.2
  collP_ok : ∀ q ∈ pm.collected_pageid_redirects, collPEntryOK u pm q.1 q.2

/-- The upstream responds consistently: normalization is idempotent,
reported canonical pages are fixed points, the title-keyed and ID-keyed
views agree, and harvest responses agree with the page-info views. -/
structure ConsistentU (u : Upstream) : Prop where
  norm_idem : ∀ t i, u.infoByTitle t = some i →
      u.infoByTitle i.norm = some ⟨i.norm, i.pageid, i.canonical⟩
  canon_fixT : ∀ t i, u.infoByTitle t = some i → ∀ pr, i.canonical = some pr →
      u.infoByTitle pr.1 = some ⟨pr.1, pr.2, none⟩
  title_id : ∀ t i, u.infoByTitle t = some i →
      u.infoById i.pageid = some ⟨i.norm, i.canonical⟩
  id_title : ∀ p j, u.infoById p = some j →
      u.infoByTitle j.title = some ⟨j.title, p, j.canonical⟩
  canon_fixI : ∀ p j, u.infoById p = some j → ∀ pr, j.canonical = some pr →
      u.infoById pr.2 = some ⟨pr.1, none⟩
  harvest_canon : ∀ cid hr, u.harvest cid = some hr →
      u.infoById cid = some ⟨hr.1, none⟩
  harvest_mem : ∀ cid hr, u.harvest cid = some hr → ∀ pr ∈ hr.2,
      u.infoByTitle pr.1 = some ⟨pr.1, pr.2, some (hr.1, cid)⟩

/-- State extension: every entry present in the first state is present
with the same value in the second. -/
structure ExtendsPM (pm pm' : PageMaps) : Prop where
  tred : ∀ {k : Title} {v : Title}, look pm.titles_redirect_map k = some v →
      look pm'.titles_redirect_map k = some v
  pred : ∀ {k v : PageId}, look pm.pageids_redirect_map k = some v →
      look pm'.pageids_redirect_map k = some v
  norm : ∀ {k v : Title}, look pm.norm_map k = some v →
      look pm'.norm_map k = some v
  idm : ∀ {k : Title} {v : PageId}, look pm.id_map k = some v →
      look pm'.id_map k = some v
  collT : ∀ {k : Title} {v : List Title},
      look pm.collected_title_redirects k = some v →
      look pm'.collected_title_redirects k = some v
  collP : ∀ {k : PageId} {v : List PageId},
      look pm.collected_pageid_redirects k = some v →
      look pm'.collected_pageid_redirects k = some v

theorem ExtendsPM.erefl (pm : PageMaps) : ExtendsPM pm pm :=
  ⟨fun h => h, fun h => h, fun h => h, fun h => h, fun h => h, fun h => h⟩

theorem ExtendsPM.etrans {a b c : PageMaps}
    (h1 : ExtendsPM a b) (h2 : ExtendsPM b c) : ExtendsPM a c :=
  ⟨fun h => h2.tred (h1.tred h), fun h => h2.pred (h1.pred h),
   fun h => h2.norm (h1.norm h), fun h => h2.idm (h1.idm h),
   fun h => h2.collT (h1.collT h), fun h => h2.collP (h1.collP h)⟩

theorem idEntryOK_mono {u : Upstream} {pm pm' : PageMaps} {t : Title} {p : PageId}
    (h : idEntryOK u pm t p) (he : ExtendsPM pm pm') : idEntryOK u pm' t p := by
  obtain ⟨i, hI, h1, h2, h3⟩ := h
  exact ⟨i, hI, h1, h2, fun pr hpr =>
    ⟨he.tred (h3 pr hpr).1, he.pred (h3 pr hpr).2.1, he.idm (h3 pr hpr).2.2⟩⟩

theorem collTEntryOK_mono {u : Upstream} {pm pm' : PageMaps} {c : Title} {L : List Title}
    (h : collTEntryOK u pm c L) (he : ExtendsPM pm pm') : collTEntryOK u pm' c L := by
  obtain ⟨cid, hr, hid, hH, h1, h2, h3, h4⟩ := h
  exact ⟨cid, hr, he.idm hid, hH, h1, h2, he.collP h3,
    fun pr hpr => he.idm (h4 pr hpr)⟩

theorem collPEntryOK_mono {u : Upstream} {pm pm' : PageMaps} {cid : PageId} {M : List PageId}
    (h : collPEntryOK u pm cid M) (he : ExtendsPM pm pm') : collPEntryOK u pm' cid M := by
  obtain ⟨hr, hH, h1, h2⟩ := h
  exact ⟨hr, hH, h1, he.collT h2⟩

theorem mapsInv_empty (u : Upstream) : MapsInv u emptyPM := by
  constructor <;> (intro q hq; simp [emptyPM] at hq)

theorem normOK_of_look {u : Upstream} {pm : PageMaps} (hinv : MapsInv u pm)
    {t n : Title} (h : look pm.norm_map t = some n) : normEntryOK u t n :=
  hinv.norm_ok (t, n) (look_mem h)

theorem tredOK_of_look {u : Upstream} {pm : PageMaps} (hinv : MapsInv u pm)
    {t c : Title} (h : look pm.titles_redirect_map t = some c) : tredEntryOK u t c :=
  hinv.tred_ok (t, c) (look_mem h)

theorem predOK_of_look {u : Upstream} {pm : PageMaps} (hinv : MapsInv u pm)
    {p q : PageId} (h : look pm.pageids_redirect_map p = some q) : predEntryOK u p q :=
  hinv.pred_ok (p, q) (look_mem h)

theorem idOK_of_look {u : Upstream} {pm : PageMaps} (hinv : MapsInv u pm)
    {t : Title} {p : PageId} (h : look pm.id_map t = some p) : idEntryOK u pm t p :=
  hinv.id_ok (t, p) (look_mem h)

theorem collTOK_of_look {u : Upstream} {pm : PageMaps} (hinv : MapsInv u pm)
    {c : Title} {L : List Title}
    (h : look pm.collected_title_redirects c = some L) : collTEntryOK u pm c L :=
  hinv.collT_ok (c, L) (look_mem h)

theorem collPOK_of_look {u : Upstream} {pm : PageMaps} (hinv : MapsInv u pm)
    {cid : PageId} {M : List PageId}
    (h : look pm.collected_pageid_redirects cid = some M) : collPEntryOK u pm cid M :=
  hinv.collP_ok (cid, M) (look_mem h)

theorem norm_forced {u : Upstream} {pm : PageMaps} (hinv : MapsInv u pm)
    {t : Title} {i : TitleInfo} (hI : u.infoByTitle t = some i) :
    ∀ w, look pm.norm_map t = some w → w = i.norm := by
  intro w h
  obtain ⟨i', hI', hn⟩ := normOK_of_look hinv h
  rw [hI] at hI'
  cases hI'
  exact hn.symm

theorem tred_forced {u : Upstream} {pm : PageMaps} (hinv : MapsInv u pm)
    {t : Title} {i : TitleInfo} (hI : u.infoByTitle t = some i) :
    ∀ w, look pm.titles_redirect_map t = some w → w = tcanon i := by
  intro w h
  obtain ⟨i', hI', _, hcan⟩ := tredOK_of_look hinv h
  rw [hI] at hI'
  cases hI'
  exact hcan.symm

theorem pred_forced {u : Upstream} {pm : PageMaps} (hinv : MapsInv u pm)
    {p : PageId} {j : IdInfo} (hJ : u.infoById p = some j) :
    ∀ w, look pm.pageids_redirect_map p = some w → w = icanon p j := by
  intro w h
  obtain ⟨j', hJ', hcan⟩ := predOK_of_look hinv h
  rw [hJ] at hJ'
  cases hJ'
  exact hcan.symm

theorem id_forced {u : Upstream} {pm : PageMaps} (hinv : MapsInv u pm)
    {t : Title} {i : TitleInfo} (hI : u.infoByTitle t = some i) :
    ∀ w, look pm.id_map t = some w → w = i.pageid := by
  intro w h
  obtain ⟨i', hI', _, hp, _⟩ := idOK_of_look hinv h
  rw [hI] at hI'
  cases hI'
  exact hp.symm

theorem mergeTitle_notfound {u : Upstream} {pm : PageMaps} {t : Title}
    (hI : u.infoByTitle t = none) : mergeTitle u pm t = pm := by
  simp [mergeTitle, hI]

theorem mergeTitle_red_eq {u : Upstream} {pm : PageMaps} {t : Title} {i : TitleInfo}
    {c : Title} {cid : PageId}
    (hI : u.infoByTitle t = some i) (hC : i.canonical = some (c, cid))
    (hN : i.norm = t) :
    mergeTitle u pm t = { pm with
      titles_redirect_map := ins pm.titles_redirect_map i.norm c
      pageids_redirect_map := ins pm.pageids_redirect_map i.pageid cid
      id_map := ins (ins pm.id_map i.norm i.pageid) c cid } := by
  simp [mergeTitle, hI, hC, hN]

theorem mergeTitle_red_ne {u : Upstream} {pm : PageMaps} {t : Title} {i : TitleInfo}
    {c : Title} {cid : PageId}
    (hI : u.infoByTitle t = some i) (hC : i.canonical = some (c, cid))
    (hN : ¬ i.norm = t) :
    mergeTitle u pm t = { pm with
      norm_map := ins pm.norm_map t i.norm
      titles_redirect_map := ins pm.titles_redirect_map i.norm c
      pageids_redirect_map := ins pm.pageids_redirect_map i.pageid cid
      id_map := ins (ins pm.id_map i.norm i.pageid) c cid } := by
  simp [mergeTitle, hI, hC, hN]

theorem mergeTitle_can_eq {u : Upstream} {pm : PageMaps} {t : Title} {i : TitleInfo}
    (hI : u.infoByTitle t = some i) (hC : i.canonical = none)
    (hN : i.norm = t) :
    mergeTitle u pm t = { pm with id_map := ins pm.id_map i.norm i.pageid } := by
  simp [mergeTitle, hI, hC, hN]

theorem mergeTitle_can_ne {u : Upstream} {pm : PageMaps} {t : Title} {i : TitleInfo}
    (hI : u.infoByTitle t = some i) (hC : i.canonical = none)
    (hN : ¬ i.norm = t) :
    mergeTitle u pm t = { pm with
      norm_map := ins pm.norm_map t i.norm
      id_map := ins pm.id_map i.norm i.pageid } := by
  simp [mergeTitle, hI, hC, hN]

theorem tcanon_mk_some (n : Title) (p : PageId) (pr : Title × PageId) :
    tcanon ⟨n, p, some pr⟩ = pr.1 := rfl

theorem tcanon_mk_none (n : Title) (p : PageId) : tcanon ⟨n, p, none⟩ = n := rfl

theorem icanon_mk_some (p : PageId) (t : Title) (pr : Title × PageId) :
    icanon p ⟨t, some pr⟩ = pr.2 := rfl

theorem icanon_mk_none (p : PageId) (t : Title) : icanon p ⟨t, none⟩ = p := rfl

theorem exact_mergeTitle {u : Upstream} {pm : PageMaps}
    (hc : ConsistentU u) (hinv : MapsInv u pm) (t : Title) :
    ExtendsPM pm (mergeTitle u pm t) := by
  cases hI : u.infoByTitle t with
  | none => rw [mergeTitle_notfound hI]; exact ExtendsPM.erefl pm
  | some i =>
    cases hC : i.canonical with
    | some pr =>
      obtain ⟨c, cid⟩ := pr
      have hIn : u.infoByTitle i.norm = some ⟨i.norm, i.pageid, some (c, cid)⟩ := by
        have h := hc.norm_idem t i hI
        rw [hC] at h
        exact h
      have hJ : u.infoById i.pageid = some ⟨i.norm, some (c, cid)⟩ := by
        have h := hc.title_id t i hI
        rw [hC] at h
        exact h
      have hcfix : u.infoByTitle c = some ⟨c, cid, none⟩ :=
        hc.canon_fixT t i hI (c, cid) hC
      have hFt : ∀ w, look pm.titles_redirect_map i.norm = some w → w = c :=
        fun w h => tred_forced hinv hIn w h
      have hFp : ∀ w, look pm.pageids_redirect_map i.pageid = some w → w = cid :=
        fun w h => pred_forced hinv hJ w h
      have hFin : ∀ w, look pm.id_map i.norm = some w → w = i.pageid :=
        fun w h => id_forced hinv hIn w h
      have hFic : ∀ w, look pm.id_map c = some w → w = cid :=
        fun w h => id_forced hinv hcfix w h
      have hFic2 : ∀ w, look (ins pm.id_map i.norm i.pageid) c = some w → w = cid := by
        intro w h
        rw [look_ins] at h
        by_cases hcn : c = i.norm
        · rw [if_pos hcn] at h
          cases h
          rw [hcn] at hcfix
          rw [hIn] at hcfix
          cases hcfix
        · rw [if_neg hcn] at h
          exact hFic w h
      by_cases hN : i.norm = t
      · rw [mergeTitle_red_eq hI hC hN]
        exact ⟨fun h => look_ins_forced hFt h, fun h => look_ins_forced hFp h,
          fun h => h, fun h => look_ins_forced hFic2 (look_ins_forced hFin h),
          fun h => h, fun h => h⟩
      · rw [mergeTitle_red_ne hI hC hN]
        have hFn : ∀ w, look pm.norm_map t = some w → w = i.norm :=
          fun w h => norm_forced hinv hI w h
        exact ⟨fun h => look_ins_forced hFt h, fun h => look_ins_forced hFp h,
          fun h => look_ins_forced hFn h,
          fun h => look_ins_forced hFic2 (look_ins_forced hFin h),
          fun h => h, fun h => h⟩
    | none =>
      have hIn : u.infoByTitle i.norm = some ⟨i.norm, i.pageid, none⟩ := by
        have h := hc.norm_idem t i hI
        rw [hC] at h
        exact h
      have hFin : ∀ w, look pm.id_map i.norm = some w → w = i.pageid :=
        fun w h => id_forced hinv hIn w h
      by_cases hN : i.norm = t
      · rw [mergeTitle_can_eq hI hC hN]
        exact ⟨fun h => h, fun h => h, fun h => h,
          fun h => look_ins_forced hFin h, fun h => h, fun h => h⟩
      · rw [mergeTitle_can_ne hI hC hN]
        have hFn : ∀ w, look pm.norm_map t = some w → w = i.norm :=
          fun w h => norm_forced hinv hI w h
        exact ⟨fun h => h, fun h => h, fun h => look_ins_forced hFn h,
          fun h => look_ins_forced hFin h, fun h => h, fun h => h⟩

theorem inv_mergeTitle {u : Upstream} {pm : PageMaps}
    (hc : ConsistentU u) (hinv : MapsInv u pm) (t : Title) :
    MapsInv u (mergeTitle u pm t) := by
  cases hI : u.infoByTitle t with
  | none => rw [mergeTitle_notfound hI]; exact hinv
  | some i =>
    have he := exact_mergeTitle hc hinv t
    cases hC : i.canonical with
    | some pr =>
      obtain ⟨c, cid⟩ := pr
      have hIn : u.infoByTitle i.norm = some ⟨i.norm, i.pageid, some (c, cid)⟩ := by
        have h := hc.norm_idem t i hI
        rw [hC] at h
        exact h
      have hJ : u.infoById i.pageid = some ⟨i.norm, some (c, cid)⟩ := by
        have h := hc.title_id t i hI
        rw [hC] at h
        exact h
      have hcfix : u.infoByTitle c = some ⟨c, cid, none⟩ :=
        hc.canon_fixT t i hI (c, cid) hC
      have main : ∀ nm : List (Title × Title),
          (∀ q ∈ nm, normEntryOK u q.1 q.2) →
          (∀ k v, look pm.norm_map k = some v → look nm k = some v) →
          MapsInv u { pm with
            norm_map := nm
            titles_redirect_map := ins pm.titles_redirect_map i.norm c
            pageids_redirect_map := ins pm.pageids_redirect_map i.pageid cid
            id_map := ins (ins pm.id_map i.norm i.pageid) c cid } := by
        intro nm hnm hnm2
        have he2 : ExtendsPM pm { pm with
            norm_map := nm
            titles_redirect_map := ins pm.titles_redirect_map i.norm c
            pageids_redirect_map := ins pm.pageids_redirect_map i.pageid cid
            id_map := ins (ins pm.id_map i.norm i.pageid) c cid } := by
          by_cases hN : i.norm = t
          · have h3 := he
            rw [mergeTitle_red_eq hI hC hN] at h3
            exact ⟨h3.tred, h3.pred, fun {k v} h => hnm2 k v h, h3.idm, h3.collT, h3.collP⟩
          · have h3 := he
            rw [mergeTitle_red_ne hI hC hN] at h3
            exact ⟨h3.tred, h3.pred, fun {k v} h => hnm2 k v h, h3.idm, h3.collT, h3.collP⟩
        refine ⟨hnm, ?_, ?_, ?_,
          fun q hq => collTEntryOK_mono (hinv.collT_ok q hq) he2,
          fun q hq => collPEntryOK_mono (hinv.collP_ok q hq) he2⟩
        · intro q hq
          rcases mem_ins hq with hq | hq
          · exact hinv.tred_ok q hq
          · subst hq
            exact ⟨⟨i.norm, i.pageid, some (c, cid)⟩, hIn, rfl, rfl⟩
        · intro q hq
          rcases mem_ins hq with hq | hq
          · exact hinv.pred_ok q hq
          · subst hq
            exact ⟨⟨i.norm, some (c, cid)⟩, hJ, rfl⟩
        · intro q hq
          rcases mem_ins hq with hq | hq
          · rcases mem_ins hq with hq | hq
            · exact idEntryOK_mono (hinv.id_ok q hq) he2
            · subst hq
              refine ⟨⟨i.norm, i.pageid, some (c, cid)⟩, hIn, rfl, rfl, ?_⟩
              intro pr' hpr'
              cases hpr'
              refine ⟨?_, ?_, ?_⟩
              · show look (ins pm.titles_redirect_map i.norm c) i.norm = some c
                rw [look_ins, if_pos rfl]
              · show look (ins pm.pageids_redirect_map i.pageid cid) i.pageid = some cid
                rw [look_ins, if_pos rfl]
              · show look (ins (ins pm.id_map i.norm i.pageid) c cid) c = some cid
                rw [look_ins, if_pos rfl]
          · subst hq
            refine ⟨⟨c, cid, none⟩, hcfix, rfl, rfl, ?_⟩
            intro pr' hpr'
            exact Option.noConfusion hpr'
      by_cases hN : i.norm = t
      · rw [mergeTitle_red_eq hI hC hN]
        exact main pm.norm_map hinv.norm_ok (fun k v h => h)
      · rw [mergeTitle_red_ne hI hC hN]
        refine main (ins pm.norm_map t i.norm) ?_ ?_
        · intro q hq
          rcases mem_ins hq with hq | hq
          · exact hinv.norm_ok q hq
          · subst hq
            exact ⟨i, hI, rfl⟩
        · intro k v h
          exact look_ins_forced (fun w hw => norm_forced hinv hI w hw) h
    | none =>
      have hIn : u.infoByTitle i.norm = some ⟨i.norm, i.pageid, none⟩ := by
        have h := hc.norm_idem t i hI
        rw [hC] at h
        exact h
      have main : ∀ nm : List (Title × Title),
          (∀ q ∈ nm, normEntryOK u q.1 q.2) →
          (∀ k v, look pm.norm_map k = some v → look nm k = some v) →
          MapsInv u { pm with
            norm_map := nm
            id_map := ins pm.id_map i.norm i.pageid } := by
        intro nm hnm hnm2
        have he2 : ExtendsPM pm { pm with
            norm_map := nm
            id_map := ins pm.id_map i.norm i.pageid } := by
          by_cases hN : i.norm = t
          · have h3 := he
            rw [mergeTitle_can_eq hI hC hN] at h3
            exact ⟨h3.tred, h3.pred, fun {k v} h => hnm2 k v h, h3.idm, h3.collT, h3.collP⟩
          · have h3 := he
            rw [mergeTitle_can_ne hI hC hN] at h3
            exact ⟨h3.tred, h3.pred, fun {k v} h => hnm2 k v h, h3.idm, h3.collT, h3.collP⟩
        refine ⟨hnm, fun q hq => hinv.tred_ok q hq, fun q hq => hinv.pred_ok q hq, ?_,
          fun q hq => collTEntryOK_mono (hinv.collT_ok q hq) he2,
          fun q hq => collPEntryOK_mono (hinv.collP_ok q hq) he2⟩
        intro q hq
        rcases mem_ins hq with hq | hq
        · exact idEntryOK_mono (hinv.id_ok q hq) he2
        · subst hq
          refine ⟨⟨i.norm, i.pageid, none⟩, hIn, rfl, rfl, ?_⟩
          intro pr' hpr'
          exact Option.noConfusion hpr'
      by_cases hN : i.norm = t
      · rw [mergeTitle_can_eq hI hC hN]
        exact main pm.norm_map hinv.norm_ok (fun k v h => h)
      · rw [mergeTitle_can_ne hI hC hN]
        refine main (ins pm.norm_map t i.norm) ?_ ?_
        · intro q hq
          rcases mem_ins hq with hq | hq
          · exact hinv.norm_ok q hq
          · subst hq
            exact ⟨i, hI, rfl⟩
        · intro k v h
          exact look_ins_forced (fun w hw => norm_forced hinv hI w hw) h

theorem mergeId_notfound {u : Upstream} {pm : PageMaps} {p : PageId}
    (hJ : u.infoById p = none) : mergeId u pm p = pm := by
  simp [mergeId, hJ]

theorem mergeId_red {u : Upstream} {pm : PageMaps} {p : PageId} {j : IdInfo}
    {c : Title} {cid : PageId}
    (hJ : u.infoById p = some j) (hC : j.canonical = some (c, cid)) :
    mergeId u pm p = { pm with
      titles_redirect_map := ins pm.titles_redirect_map j.title c
      pageids_redirect_map := ins pm.pageids_redirect_map p cid
      id_map := ins (ins pm.id_map j.title p) c cid } := by
  simp [mergeId, hJ, hC]

theorem mergeId_can {u : Upstream} {pm : PageMaps} {p : PageId} {j : IdInfo}
    (hJ : u.infoById p = some j) (hC : j.canonical = none) :
    mergeId u pm p = { pm with id_map := ins pm.id_map j.title p } := by
  simp [mergeId, hJ, hC]

theorem exact_mergeId {u : Upstream} {pm : PageMaps}
    (hc : ConsistentU u) (hinv : MapsInv u pm) (p : PageId) :
    ExtendsPM pm (mergeId u pm p) := by
  cases hJ : u.infoById p with
  | none => rw [mergeId_notfound hJ]; exact ExtendsPM.erefl pm
  | some j =>
    cases hC : j.canonical with
    | some pr =>
      obtain ⟨c, cid⟩ := pr
      have hT : u.infoByTitle j.title = some ⟨j.title, p, some (c, cid)⟩ := by
        have h := hc.id_title p j hJ
        rw [hC] at h
        exact h
      have hcfixI : u.infoById cid = some ⟨c, none⟩ := hc.canon_fixI p j hJ (c, cid) hC
      have hcfixT : u.infoByTitle c = some ⟨c, cid, none⟩ := by
        have h := hc.id_title cid ⟨c, none⟩ hcfixI
        exact h
      have hJC : u.infoById p = some ⟨j.title, some (c, cid)⟩ := by
        rw [hJ]
        cases j with
        | mk jt jc =>
          simp only at hC
          rw [hC]
      have hFt : ∀ w, look pm.titles_redirect_map j.title = some w → w = c :=
        fun w h => tred_forced hinv hT w h
      have hFp : ∀ w, look pm.pageids_redirect_map p = some w → w = cid :=
        fun w h => pred_forced hinv hJC w h
      have hFit : ∀ w, look pm.id_map j.title = some w → w = p :=
        fun w h => id_forced hinv hT w h
      have hFic : ∀ w, look pm.id_map c = some w → w = cid :=
        fun w h => id_forced hinv hcfixT w h
      have hFic2 : ∀ w, look (ins pm.id_map j.title p) c = some w → w = cid := by
        intro w h
        rw [look_ins] at h
        by_cases hcn : c = j.title
        · rw [if_pos hcn] at h
          cases h
          rw [hcn] at hcfixT
          rw [hT] at hcfixT
          cases hcfixT
        · rw [if_neg hcn] at h
          exact hFic w h
      rw [mergeId_red hJ hC]
      exact ⟨fun h => look_ins_forced hFt h, fun h => look_ins_forced hFp h,
        fun h => h, fun h => look_ins_forced hFic2 (look_ins_forced hFit h),
        fun h => h, fun h => h⟩
    | none =>
      have hT : u.infoByTitle j.title = some ⟨j.title, p, none⟩ := by
        have h := hc.id_title p j hJ
        rw [hC] at h
        exact h
      have hFit : ∀ w, look pm.id_map j.title = some w → w = p :=
        fun w h => id_forced hinv hT w h
      rw [mergeId_can hJ hC]
      exact ⟨fun h => h, fun h => h, fun h => h,
        fun h => look_ins_forced hFit h, fun h => h, fun h => h⟩

theorem inv_mergeId {u : Upstream} {pm : PageMaps}
    (hc : ConsistentU u) (hinv : MapsInv u pm) (p : PageId) :
    MapsInv u (mergeId u pm p) := by
  cases hJ : u.infoById p with
  | none => rw [mergeId_notfound hJ]; exact hinv
  | some j =>
    have he := exact_mergeId hc hinv p
    cases hC : j.canonical with
    | some pr =>
      obtain ⟨c, cid⟩ := pr
      have hT : u.infoByTitle j.title = some ⟨j.title, p, some (c, cid)⟩ := by
        have h := hc.id_title p j hJ
        rw [hC] at h
        exact h
      have hcfixI : u.infoById cid = some ⟨c, none⟩ := hc.canon_fixI p j hJ (c, cid) hC
      have hcfixT : u.infoByTitle c = some ⟨c, cid, none⟩ :=
        hc.id_title cid ⟨c, none⟩ hcfixI
      have hJC : u.infoById p = some ⟨j.title, some (c, cid)⟩ := by
        rw [hJ]
        cases j with
        | mk jt jc =>
          simp only at hC
          rw [hC]
      rw [mergeId_red hJ hC] at he ⊢
      refine ⟨fun q hq => hinv.norm_ok q hq, ?_, ?_, ?_,
        fun q hq => collTEntryOK_mono (hinv.collT_ok q hq) he,
        fun q hq => collPEntryOK_mono (hinv.collP_ok q hq) he⟩
      · intro q hq
        rcases mem_ins hq with hq | hq
        · exact hinv.tred_ok q hq
        · subst hq
          exact ⟨⟨j.title, p, some (c, cid)⟩, hT, rfl, rfl⟩
      · intro q hq
        rcases mem_ins hq with hq | hq
        · exact hinv.pred_ok q hq
        · subst hq
          exact ⟨⟨j.title, some (c, cid)⟩, hJC, rfl⟩
      · intro q hq
        rcases mem_ins hq with hq | hq
        · rcases mem_ins hq with hq | hq
          · exact idEntryOK_mono (hinv.id_ok q hq) he
          · subst hq
            refine ⟨⟨j.title, p, some (c, cid)⟩, hT, rfl, rfl, ?_⟩
            intro pr' hpr'
            cases hpr'
            refine ⟨?_, ?_, ?_⟩
            · show look (ins pm.titles_redirect_map j.title c) j.title = some c
              rw [look_ins, if_pos rfl]
            · show look (ins pm.pageids_redirect_map p cid) p = some cid
              rw [look_ins, if_pos rfl]
            · show look (ins (ins pm.id_map j.title p) c cid) c = some cid
              rw [look_ins, if_pos rfl]
        · subst hq
          refine ⟨⟨c, cid, none⟩, hcfixT, rfl, rfl, ?_⟩
          intro pr' hpr'
          exact Option.noConfusion hpr'
    | none =>
      have hT : u.infoByTitle j.title = some ⟨j.title, p, none⟩ := by
        have h := hc.id_title p j hJ
        rw [hC] at h
        exact h
      rw [mergeId_can hJ hC] at he ⊢
      refine ⟨fun q hq => hinv.norm_ok q hq, fun q hq => hinv.tred_ok q hq,
        fun q hq => hinv.pred_ok q hq, ?_,
        fun q hq => collTEntryOK_mono (hinv.collT_ok q hq) he,
        fun q hq => collPEntryOK_mono (hinv.collP_ok q hq) he⟩
      intro q hq
      rcases mem_ins hq with hq | hq
      · exact idEntryOK_mono (hinv.id_ok q hq) he
      · subst hq
        refine ⟨⟨j.title, p, none⟩, hT, rfl, rfl, ?_⟩
        intro pr' hpr'
        exact Option.noConfusion hpr'

theorem mergeHarvest_notfound {u : Upstream} {pm : PageMaps} {cid : PageId}
    (hH : u.harvest cid = none) : mergeHarvest u pm cid = pm := by
  simp [mergeHarvest, hH]

theorem mergeHarvest_some {u : Upstream} {pm : PageMaps} {cid : PageId}
    {c : Title} {pairs : List (Title × PageId)}
    (hH : u.harvest cid = some (c, pairs)) :
    mergeHarvest u pm cid = ((c, cid) :: pairs).foldl (backfill c cid)
      { pm with
        collected_title_redirects :=
          ins pm.collected_title_redirects c (((c, cid) :: pairs).map Prod.fst)
        collected_pageid_redirects :=
          ins pm.collected_pageid_redirects cid (((c, cid) :: pairs).map Prod.snd) } := by
  simp [mergeHarvest, hH]

theorem foldl_backfill_norm (c : Title) (cid : PageId) :
    ∀ (al : List (Title × PageId)) (q : PageMaps),
      (al.foldl (backfill c cid) q).norm_map = q.norm_map := by
  intro al
  induction al with
  | nil => intro q; rfl
  | cons a rest ih =>
    intro q
    simp only [List.foldl_cons]
    rw [ih]
    rfl

theorem foldl_backfill_collT (c : Title) (cid : PageId) :
    ∀ (al : List (Title × PageId)) (q : PageMaps),
      (al.foldl (backfill c cid) q).collected_title_redirects
        = q.collected_title_redirects := by
  intro al
  induction al with
  | nil => intro q; rfl
  | cons a rest ih =>
    intro q
    simp only [List.foldl_cons]
    rw [ih]
    rfl

theorem foldl_backfill_collP (c : Title) (cid : PageId) :
    ∀ (al : List (Title × PageId)) (q : PageMaps),
      (al.foldl (backfill c cid) q).collected_pageid_redirects
        = q.collected_pageid_redirects := by
  intro al
  induction al with
  | nil => intro q; rfl
  | cons a rest ih =>
    intro q
    simp only [List.foldl_cons]
    rw [ih]
    rfl

theorem foldl_backfill_tred_some (c : Title) (cid : PageId) :
    ∀ (al : List (Title × PageId)) (q : PageMaps) {k v : Title},
      look q.titles_redirect_map k = some v →
      look ((al.foldl (backfill c cid) q).titles_redirect_map) k = some v := by
  intro al
  induction al with
  | nil => intro q k v h; exact h
  | cons a rest ih =>
    intro q k v h
    simp only [List.foldl_cons]
    exact ih _ (look_insA_of_some h)

theorem foldl_backfill_pred_some (c : Title) (cid : PageId) :
    ∀ (al : List (Title × PageId)) (q : PageMaps) {k v : PageId},
      look q.pageids_redirect_map k = some v →
      look ((al.foldl (backfill c cid) q).pageids_redirect_map) k = some v := by
  intro al
  induction al with
  | nil => intro q k v h; exact h
  | cons a rest ih =>
    intro q k v h
    simp only [List.foldl_cons]
    exact ih _ (look_insA_of_some h)

theorem foldl_backfill_idm_some (c : Title) (cid : PageId) :
    ∀ (al : List (Title × PageId)) (q : PageMaps) {k : Title} {v : PageId},
      look q.id_map k = some v →
      look ((al.foldl (backfill c cid) q).id_map) k = some v := by
  intro al
  induction al with
  | nil => intro q k v h; exact h
  | cons a rest ih =>
    intro q k v h
    simp only [List.foldl_cons]
    exact ih _ (look_insA_of_some h)

theorem foldl_backfill_tred_mem (c : Title) (cid : PageId) :
    ∀ (al : List (Title × PageId)) (q : PageMaps) {r : Title × Title},
      r ∈ (al.foldl (backfill c cid) q).titles_redirect_map →
      r ∈ q.titles_redirect_map ∨ ∃ pr ∈ al, r = (pr.1, c) := by
  intro al
  induction al with
  | nil => intro q r h; exact Or.inl h
  | cons a rest ih =>
    intro q r h
    simp only [List.foldl_cons] at h
    rcases ih _ h with h' | ⟨pr, hpr, hr⟩
    · rcases mem_insA h' with h'' | h''
      · exact Or.inl h''
      · exact Or.inr ⟨a, List.mem_cons_self _ _, h''⟩
    · exact Or.inr ⟨pr, List.mem_cons_of_mem _ hpr, hr⟩

theorem foldl_backfill_pred_mem (c : Title) (cid : PageId) :
    ∀ (al : List (Title × PageId)) (q : PageMaps) {r : PageId × PageId},
      r ∈ (al.foldl (backfill c cid) q).pageids_redirect_map →
      r ∈ q.pageids_redirect_map ∨ ∃ pr ∈ al, r = (pr.2, cid) := by
  intro al
  induction al with
  | nil => intro q r h; exact Or.inl h
  | cons a rest ih =>
    intro q r h
    simp only [List.foldl_cons] at h
    rcases ih _ h with h' | ⟨pr, hpr, hr⟩
    · rcases mem_insA h' with h'' | h''
      · exact Or.inl h''
      · exact Or.inr ⟨a, List.mem_cons_self _ _, h''⟩
    · exact Or.inr ⟨pr, List.mem_cons_of_mem _ hpr, hr⟩

theorem foldl_backfill_idm_mem (c : Title) (cid : PageId) :
    ∀ (al : List (Title × PageId)) (q : PageMaps) {r : Title × PageId},
      r ∈ (al.foldl (backfill c cid) q).id_map →
      r ∈ q.id_map ∨ r ∈ al := by
  intro al
  induction al with
  | nil => intro q r h; exact Or.inl h
  | cons a rest ih =>
    intro q r h
    simp only [List.foldl_cons] at h
    rcases ih _ h with h' | h'
    · rcases mem_insA h' with h'' | h''
      · exact Or.inl h''
      · right
        rw [h'']
        have : (a.1, a.2) = a := rfl
        rw [this]
        exact List.mem_cons_self _ _
    · exact Or.inr (List.mem_cons_of_mem _ h')

theorem foldl_backfill_tred_all (c : Title) (cid : PageId) :
    ∀ (al : List (Title × PageId)) (q : PageMaps),
      (∀ pr ∈ al, ∀ w, look q.titles_redirect_map pr.1 = some w → w = c) →
      ∀ pr ∈ al, look ((al.foldl (backfill c cid) q).titles_redirect_map) pr.1 = some c := by
  intro al
  induction al with
  | nil => intro q _ pr hpr; simp at hpr
  | cons a rest ih =>
    intro q hF pr hpr
    simp only [List.foldl_cons]
    have hstep : look (backfill c cid q a).titles_redirect_map a.1 = some c := by
      show look (insA q.titles_redirect_map a.1 c) a.1 = some c
      rw [look_insA, if_pos rfl]
      cases hl : look q.titles_redirect_map a.1 with
      | none => rfl
      | some w => rw [hF a (List.mem_cons_self _ _) w hl]; rfl
    rcases List.mem_cons.mp hpr with hpr | hpr
    · rw [hpr]
      exact foldl_backfill_tred_some c cid rest _ hstep
    · refine ih (backfill c cid q a) ?_ pr hpr
      intro pr2 hpr2 w hw
      change look (insA q.titles_redirect_map a.1 c) pr2.1 = some w at hw
      rw [look_insA] at hw
      by_cases hk : pr2.1 = a.1
      · rw [if_pos hk] at hw
        cases hl : look q.titles_redirect_map a.1 with
        | none =>
          rw [hl] at hw
          cases hw
          rfl
        | some w0 =>
          rw [hl] at hw
          cases hw
          exact hF a (List.mem_cons_self _ _) w0 hl
      · rw [if_neg hk] at hw
        exact hF pr2 (List.mem_cons_of_mem _ hpr2) w hw

theorem foldl_backfill_pred_all (c : Title) (cid : PageId) :
    ∀ (al : List (Title × PageId)) (q : PageMaps),
      (∀ pr ∈ al, ∀ w, look q.pageids_redirect_map pr.2 = some w → w = cid) →
      ∀ pr ∈ al, look ((al.foldl (backfill c cid) q).pageids_redirect_map) pr.2 = some cid := by
  intro al
  induction al with
  | nil => intro q _ pr hpr; simp at hpr
  | cons a rest ih =>
    intro q hF pr hpr
    simp only [List.foldl_cons]
    have hstep : look (backfill c cid q a).pageids_redirect_map a.2 = some cid := by
      show look (insA q.pageids_redirect_map a.2 cid) a.2 = some cid
      rw [look_insA, if_pos rfl]
      cases hl : look q.pageids_redirect_map a.2 with
      | none => rfl
      | some w => rw [hF a (List.mem_cons_self _ _) w hl]; rfl
    rcases List.mem_cons.mp hpr with hpr | hpr
    · rw [hpr]
      exact foldl_backfill_pred_some c cid rest _ hstep
    · refine ih (backfill c cid q a) ?_ pr hpr
      intro pr2 hpr2 w hw
      change look (insA q.pageids_redirect_map a.2 cid) pr2.2 = some w at hw
      rw [look_insA] at hw
      by_cases hk : pr2.2 = a.2
      · rw [if_pos hk] at hw
        cases hl : look q.pageids_redirect_map a.2 with
        | none =>
          rw [hl] at hw
          cases hw
          rfl
        | some w0 =>
          rw [hl] at hw
          cases hw
          exact hF a (List.mem_cons_self _ _) w0 hl
      · rw [if_neg hk] at hw
        exact hF pr2 (List.mem_cons_of_mem _ hpr2) w hw

theorem foldl_backfill_idm_all (c : Title) (cid : PageId) :
    ∀ (al : List (Title × PageId)) (q : PageMaps),
      (∀ pr ∈ al, ∀ w, look q.id_map pr.1 = some w → w = pr.2) →
      (∀ pr ∈ al, ∀ pr2 ∈ al, pr.1 = pr2.1 → pr.2 = pr2.2) →
      ∀ pr ∈ al, look ((al.foldl (backfill c cid) q).id_map) pr.1 = some pr.2 := by
  intro al
  induction al with
  | nil => intro q _ _ pr hpr; simp at hpr
  | cons a rest ih =>
    intro q hF hFun pr hpr
    simp only [List.foldl_cons]
    have hstep : look (backfill c cid q a).id_map a.1 = some a.2 := by
      show look (insA q.id_map a.1 a.2) a.1 = some a.2
      rw [look_insA, if_pos rfl]
      cases hl : look q.id_map a.1 with
      | none => rfl
      | some w => rw [hF a (List.mem_cons_self _ _) w hl]; rfl
    rcases List.mem_cons.mp hpr with hpr | hpr
    · rw [hpr]
      exact foldl_backfill_idm_some c cid rest _ hstep
    · refine ih (backfill c cid q a) ?_ ?_ pr hpr
      · intro pr2 hpr2 w hw
        change look (insA q.id_map a.1 a.2) pr2.1 = some w at hw
        rw [look_insA] at hw
        by_cases hk : pr2.1 = a.1
        · rw [if_pos hk] at hw
          cases hl : look q.id_map a.1 with
          | none =>
            rw [hl] at hw
            cases hw
            have h2 := hFun a (List.mem_cons_self _ _) pr2
              (List.mem_cons_of_mem _ hpr2) hk.symm
            simpa using h2
          | some w0 =>
            rw [hl] at hw
            cases hw
            rw [← hk] at hl
            exact hF pr2 (List.mem_cons_of_mem _ hpr2) w0 hl
        · rw [if_neg hk] at hw
          exact hF pr2 (List.mem_cons_of_mem _ hpr2) w hw
      · intro pr2 hpr2 pr3 hpr3 hk
        exact hFun pr2 (List.mem_cons_of_mem _ hpr2) pr3 (List.mem_cons_of_mem _ hpr3) hk

theorem harvest_cid_unique {u : Upstream} (hc : ConsistentU u)
    {cid cid0 : PageId} {hr hr0 : Title × List (Title × PageId)}
    (hH : u.harvest cid = some hr) (hH0 : u.harvest cid0 = some hr0)
    (he : hr0.1 = hr.1) : cid0 = cid := by
  have h1 := hc.id_title cid ⟨hr.1, none⟩ (hc.harvest_canon cid hr hH)
  have h2 := hc.id_title cid0 ⟨hr0.1, none⟩ (hc.harvest_canon cid0 hr0 hH0)
  simp only at h1 h2
  rw [he] at h2
  rw [h1] at h2
  simp only [Option.some.injEq, TitleInfo.mk.injEq] at h2
  exact h2.2.1.symm

theorem exact_mergeHarvest {u : Upstream} {pm : PageMaps}
    (hc : ConsistentU u) (hinv : MapsInv u pm) (cid : PageId)
    (hmiss : look pm.collected_pageid_redirects cid = none) :
    ExtendsPM pm (mergeHarvest u pm cid) := by
  cases hH : u.harvest cid with
  | none => rw [mergeHarvest_notfound hH]; exact ExtendsPM.erefl pm
  | some hr =>
    obtain ⟨c, pairs⟩ := hr
    rw [mergeHarvest_some hH]
    refine ⟨?_, ?_, ?_, ?_, ?_, ?_⟩
    · intro k v h
      exact foldl_backfill_tred_some c cid _ _ h
    · intro k v h
      exact foldl_backfill_pred_some c cid _ _ h
    · intro k v h
      rw [foldl_backfill_norm]
      exact h
    · intro k v h
      exact foldl_backfill_idm_some c cid _ _ h
    · intro k v h
      rw [foldl_backfill_collT]
      show look (ins pm.collected_title_redirects c
        (((c, cid) :: pairs).map Prod.fst)) k = some v
      rw [look_ins]
      by_cases hk : k = c
      · exfalso
        subst hk
        obtain ⟨cid0, hr0, hid0, hH0, h1, _, hcp, _⟩ := collTOK_of_look hinv h
        have hcc : cid0 = cid := harvest_cid_unique hc hH hH0 h1
        rw [hcc] at hcp
        rw [hmiss] at hcp
        cases hcp
      · rw [if_neg hk]
        exact h
    · intro k v h
      rw [foldl_backfill_collP]
      show look (ins pm.collected_pageid_redirects cid
        (((c, cid) :: pairs).map Prod.snd)) k = some v
      rw [look_ins]
      by_cases hk : k = cid
      · exfalso
        subst hk
        rw [hmiss] at h
        cases h
      · rw [if_neg hk]
        exact h

theorem inv_mergeHarvest {u : Upstream} {pm : PageMaps}
    (hc : ConsistentU u) (hinv : MapsInv u pm) (cid : PageId)
    (hmiss : look pm.collected_pageid_redirects cid = none) :
    MapsInv u (mergeHarvest u pm cid) := by
  cases hH : u.harvest cid with
  | none => rw [mergeHarvest_notfound hH]; exact hinv
  | some hr =>
    obtain ⟨c, pairs⟩ := hr
    have he := exact_mergeHarvest hc hinv cid hmiss
    rw [mergeHarvest_some hH] at he ⊢
    have hICid : u.infoById cid = some ⟨c, none⟩ := hc.harvest_canon cid (c, pairs) hH
    have hIC : u.infoByTitle c = some ⟨c, cid, none⟩ := hc.id_title cid ⟨c, none⟩ hICid
    have alinfo : ∀ pr ∈ (c, cid) :: pairs,
        ∃ canop, u.infoByTitle pr.1 = some ⟨pr.1, pr.2, canop⟩ ∧
          tcanon ⟨pr.1, pr.2, canop⟩ = c ∧
          ∀ pr', canop = some pr' → pr' = (c, cid) := by
      intro pr hpr
      rcases List.mem_cons.mp hpr with hpr | hpr
      · subst hpr
        exact ⟨none, hIC, rfl, fun pr' h => Option.noConfusion h⟩
      · refine ⟨some (c, cid), hc.harvest_mem cid (c, pairs) hH pr hpr, rfl, ?_⟩
        intro pr' h
        cases h
        rfl
    have alid : ∀ pr ∈ (c, cid) :: pairs,
        ∃ cano, u.infoById pr.2 = some ⟨pr.1, cano⟩ ∧
          icanon pr.2 ⟨pr.1, cano⟩ = cid := by
      intro pr hpr
      rcases List.mem_cons.mp hpr with hpr | hpr
      · subst hpr
        exact ⟨none, hICid, rfl⟩
      · have hi := hc.harvest_mem cid (c, pairs) hH pr hpr
        have hj := hc.title_id pr.1 ⟨pr.1, pr.2, some (c, cid)⟩ hi
        exact ⟨some (c, cid), hj, rfl⟩
    have hFid : ∀ pr ∈ (c, cid) :: pairs, ∀ w, look pm.id_map pr.1 = some w → w = pr.2 := by
      intro pr hpr w h
      obtain ⟨canop, hi, _, _⟩ := alinfo pr hpr
      exact id_forced hinv hi w h
    have hFtred : ∀ pr ∈ (c, cid) :: pairs, ∀ w,
        look pm.titles_redirect_map pr.1 = some w → w = c := by
      intro pr hpr w h
      obtain ⟨canop, hi, htc, _⟩ := alinfo pr hpr
      rw [← htc]
      exact tred_forced hinv hi w h
    have hFpred : ∀ pr ∈ (c, cid) :: pairs, ∀ w,
        look pm.pageids_redirect_map pr.2 = some w → w = cid := by
      intro pr hpr w h
      obtain ⟨cano, hj, hic⟩ := alid pr hpr
      rw [← hic]
      exact pred_forced hinv hj w h
    have hFun : ∀ pr ∈ (c, cid) :: pairs, ∀ pr2 ∈ (c, cid) :: pairs,
        pr.1 = pr2.1 → pr.2 = pr2.2 := by
      intro pr hpr pr2 hpr2 hk
      obtain ⟨c1, hi1, _, _⟩ := alinfo pr hpr
      obtain ⟨c2, hi2, _, _⟩ := alinfo pr2 hpr2
      rw [hk] at hi1
      rw [hi2] at hi1
      simp only [Option.some.injEq, TitleInfo.mk.injEq] at hi1
      exact hi1.2.1.symm
    have hAllId := foldl_backfill_idm_all c cid ((c, cid) :: pairs)
      { pm with
        collected_title_redirects :=
          ins pm.collected_title_redirects c (((c, cid) :: pairs).map Prod.fst)
        collected_pageid_redirects :=
          ins pm.collected_pageid_redirects cid (((c, cid) :: pairs).map Prod.snd) }
      hFid hFun
    have hAllTred := foldl_backfill_tred_all c cid ((c, cid) :: pairs)
      { pm with
        collected_title_redirects :=
          ins pm.collected_title_redirects c (((c, cid) :: pairs).map Prod.fst)
        collected_pageid_redirects :=
          ins pm.collected_pageid_redirects cid (((c, cid) :: pairs).map Prod.snd) }
      hFtred
    have hAllPred := foldl_backfill_pred_all c cid ((c, cid) :: pairs)
      { pm with
        collected_title_redirects :=
          ins pm.collected_title_redirects c (((c, cid) :: pairs).map Prod.fst)
        collected_pageid_redirects :=
          ins pm.collected_pageid_redirects cid (((c, cid) :: pairs).map Prod.snd) }
      hFpred
    refine ⟨?_, ?_, ?_, ?_, ?_, ?_⟩
    · intro q hq
      rw [foldl_backfill_norm] at hq
      exact hinv.norm_ok q hq
    · intro q hq
      rcases foldl_backfill_tred_mem c cid _ _ hq with hq | ⟨pr, hpr, hr⟩
      · exact hinv.tred_ok q hq
      · subst hr
        obtain ⟨canop, hi, htc, _⟩ := alinfo pr hpr
        exact ⟨⟨pr.1, pr.2, canop⟩, hi, rfl, htc⟩
    · intro q hq
      rcases foldl_backfill_pred_mem c cid _ _ hq with hq | ⟨pr, hpr, hr⟩
      · exact hinv.pred_ok q hq
      · subst hr
        obtain ⟨cano, hj, hic⟩ := alid pr hpr
        exact ⟨⟨pr.1, cano⟩, hj, hic⟩
    · intro q hq
      rcases foldl_backfill_idm_mem c cid _ _ hq with hq | hq
      · exact idEntryOK_mono (hinv.id_ok q hq) he
      · obtain ⟨canop, hi, htc, hcan⟩ := alinfo q hq
        refine ⟨⟨q.1, q.2, canop⟩, hi, rfl, rfl, ?_⟩
        intro pr' hpr'
        have hpr2 := hcan pr' hpr'
        subst hpr2
        refine ⟨hAllTred q hq, hAllPred q hq, ?_⟩
        exact hAllId (c, cid) (List.mem_cons_self _ _)
    · intro q hq
      rw [foldl_backfill_collT] at hq
      have hq2 : q ∈ ins pm.collected_title_redirects c
          (((c, cid) :: pairs).map Prod.fst) := hq
      rcases mem_ins hq2 with hq3 | hq3
      · exact collTEntryOK_mono (hinv.collT_ok q hq3) he
      · subst hq3
        refine ⟨cid, (c, pairs), hAllId (c, cid) (List.mem_cons_self _ _), hH,
          rfl, rfl, ?_, hAllId⟩
        rw [foldl_backfill_collP]
        show look (ins pm.collected_pageid_redirects cid
          (((c, cid) :: pairs).map Prod.snd)) cid
            = some (((c, cid) :: pairs).map Prod.snd)
        rw [look_ins, if_pos rfl]
    · intro q hq
      rw [foldl_backfill_collP] at hq
      have hq2 : q ∈ ins pm.collected_pageid_redirects cid
          (((c, cid) :: pairs).map Prod.snd) := hq
      rcases mem_ins hq2 with hq3 | hq3
      · exact collPEntryOK_mono (hinv.collP_ok q hq3) he
      · subst hq3
        refine ⟨(c, pairs), hH, rfl, ?_⟩
        rw [foldl_backfill_collT]
        show look (ins pm.collected_title_redirects c
          (((c, cid) :: pairs).map Prod.fst)) c
            = some (((c, cid) :: pairs).map Prod.fst)
        rw [look_ins, if_pos rfl]

theorem foldT_inv_ext {u : Upstream} (hc : ConsistentU u) :
    ∀ (l : List Title) (pm : PageMaps), MapsInv u pm →
      MapsInv u (l.foldl (mergeTitle u) pm) ∧
      ExtendsPM pm (l.foldl (mergeTitle u) pm) := by
  intro l
  induction l with
  | nil => intro pm hinv; exact ⟨hinv, ExtendsPM.erefl pm⟩
  | cons t rest ih =>
    intro pm hinv
    simp only [List.foldl_cons]
    obtain ⟨h1, h2⟩ := ih (mergeTitle u pm t) (inv_mergeTitle hc hinv t)
    exact ⟨h1, (exact_mergeTitle hc hinv t).etrans h2⟩

theorem foldI_inv_ext {u : Upstream} (hc : ConsistentU u) :
    ∀ (l : List PageId) (pm : PageMaps), MapsInv u pm →
      MapsInv u (l.foldl (mergeId u) pm) ∧
      ExtendsPM pm (l.foldl (mergeId u) pm) := by
  intro l
  induction l with
  | nil => intro pm hinv; exact ⟨hinv, ExtendsPM.erefl pm⟩
  | cons p rest ih =>
    intro pm hinv
    simp only [List.foldl_cons]
    obtain ⟨h1, h2⟩ := ih (mergeId u pm p) (inv_mergeId hc hinv p)
    exact ⟨h1, (exact_mergeId hc hinv p).etrans h2⟩

theorem look_mergeHarvest_collP_other {u : Upstream} {pm : PageMaps}
    {cid k : PageId} (hk : ¬ k = cid) :
    look (mergeHarvest u pm cid).collected_pageid_redirects k
      = look pm.collected_pageid_redirects k := by
  cases hH : u.harvest cid with
  | none => rw [mergeHarvest_notfound hH]
  | some hr =>
    obtain ⟨c, pairs⟩ := hr
    rw [mergeHarvest_some hH, foldl_backfill_collP]
    show look (ins pm.collected_pageid_redirects cid
      (((c, cid) :: pairs).map Prod.snd)) k = _
    rw [look_ins, if_neg hk]

theorem foldH_inv_ext {u : Upstream} (hc : ConsistentU u) :
    ∀ (l : List PageId) (pm : PageMaps), MapsInv u pm → l.Nodup →
      (∀ cid ∈ l, look pm.collected_pageid_redirects cid = none) →
      MapsInv u (l.foldl (mergeHarvest u) pm) ∧
      ExtendsPM pm (l.foldl (mergeHarvest u) pm) := by
  intro l
  induction l with
  | nil => intro pm hinv _ _; exact ⟨hinv, ExtendsPM.erefl pm⟩
  | cons cid rest ih =>
    intro pm hinv hnd hmiss
    simp only [List.foldl_cons]
    have hm0 : look pm.collected_pageid_redirects cid = none :=
      hmiss cid (List.mem_cons_self _ _)
    have hnd2 := List.nodup_cons.mp hnd
    have hmiss2 : ∀ c2 ∈ rest,
        look (mergeHarvest u pm cid).collected_pageid_redirects c2 = none := by
      intro c2 hc2
      have hne : ¬ c2 = cid := fun h => hnd2.1 (h ▸ hc2)
      rw [look_mergeHarvest_collP_other hne]
      exact hmiss c2 (List.mem_cons_of_mem _ hc2)
    obtain ⟨h1, h2⟩ := ih (mergeHarvest u pm cid)
      (inv_mergeHarvest hc hinv cid hm0) hnd2.2 hmiss2
    exact ⟨h1, (exact_mergeHarvest hc hinv cid hm0).etrans h2⟩

theorem fix_redirects_fst (u : Upstream) (pm : PageMaps)
    (ts : List Title) (ps : List PageId) :
    (fix_redirects u pm ts ps).1 =
      ((nub ps).filter (fun p => !(resolvedI pm p))).foldl (mergeId u)
        (((nub ts).filter (fun t => !(resolvedT pm t))).foldl (mergeTitle u) pm) := rfl

theorem fix_redirects_snd (u : Upstream) (pm : PageMaps)
    (ts : List Title) (ps : List PageId) :
    (fix_redirects u pm ts ps).2 =
      ((nub ts).filter (fun t => !(resolvedT pm t))).map Query.infoT ++
      ((nub ps).filter (fun p => !(resolvedI pm p))).map Query.infoI := rfl

theorem inv_fix {u : Upstream} {pm : PageMaps}
    (hc : ConsistentU u) (hinv : MapsInv u pm) (ts : List Title) (ps : List PageId) :
    MapsInv u (fix_redirects u pm ts ps).1 ∧
    ExtendsPM pm (fix_redirects u pm ts ps).1 := by
  rw [fix_redirects_fst]
  obtain ⟨h1, h2⟩ := foldT_inv_ext hc ((nub ts).filter (fun t => !(resolvedT pm t))) pm hinv
  obtain ⟨h3, h4⟩ := foldI_inv_ext hc ((nub ps).filter (fun p => !(resolvedI pm p))) _ h1
  exact ⟨h3, h2.etrans h4⟩

theorem get_redirects_fst (u : Upstream) (pm : PageMaps)
    (ts : List Title) (ps : List PageId) :
    (get_redirects u pm ts ps).1 =
      ((nub (((nub ((nub ts).map (canonTitle (fix_redirects u pm ts ps).1))).filter
          (fun c => (look (fix_redirects u pm ts ps).1.collected_title_redirects c).isNone)).filterMap
            (fun c => look (fix_redirects u pm ts ps).1.id_map c) ++
          (nub ps).map (canonId (fix_redirects u pm ts ps).1))).filter
        (fun cid => (look (fix_redirects u pm ts ps).1.collected_pageid_redirects cid).isNone)).foldl
        (mergeHarvest u) (fix_redirects u pm ts ps).1 := rfl

theorem get_redirects_snd (u : Upstream) (pm : PageMaps)
    (ts : List Title) (ps : List PageId) :
    (get_redirects u pm ts ps).2 =
      (fix_redirects u pm ts ps).2 ++
      (((nub (((nub ((nub ts).map (canonTitle (fix_redirects u pm ts ps).1))).filter
          (fun c => (look (fix_redirects u pm ts ps).1.collected_title_redirects c).isNone)).filterMap
            (fun c => look (fix_redirects u pm ts ps).1.id_map c) ++
          (nub ps).map (canonId (fix_redirects u pm ts ps).1))).filter
        (fun cid => (look (fix_redirects u pm ts ps).1.collected_pageid_redirects cid).isNone)).map
        Query.harv) := rfl

theorem inv_get {u : Upstream} {pm : PageMaps}
    (hc : ConsistentU u) (hinv : MapsInv u pm) (ts : List Title) (ps : List PageId) :
    MapsInv u (get_redirects u pm ts ps).1 ∧
    ExtendsPM pm (get_redirects u pm ts ps).1 := by
  obtain ⟨h1, h2⟩ := inv_fix hc hinv ts ps
  rw [get_redirects_fst]
  have hnd : (((nub (((nub ((nub ts).map (canonTitle (fix_redirects u pm ts ps).1))).filter
      (fun c => (look (fix_redirects u pm ts ps).1.collected_title_redirects c).isNone)).filterMap
        (fun c => look (fix_redirects u pm ts ps).1.id_map c) ++
      (nub ps).map (canonId (fix_redirects u pm ts ps).1))).filter
    (fun cid => (look (fix_redirects u pm ts ps).1.collected_pageid_redirects cid).isNone))).Nodup :=
    List.Nodup.filter _ (nub_nodup _)
  have hmiss : ∀ cid ∈ ((nub (((nub ((nub ts).map (canonTitle (fix_redirects u pm ts ps).1))).filter
      (fun c => (look (fix_redirects u pm ts ps).1.collected_title_redirects c).isNone)).filterMap
        (fun c => look (fix_redirects u pm ts ps).1.id_map c) ++
      (nub ps).map (canonId (fix_redirects u pm ts ps).1))).filter
    (fun cid => (look (fix_redirects u pm ts ps).1.collected_pageid_redirects cid).isNone)),
      look (fix_redirects u pm ts ps).1.collected_pageid_redirects cid = none := by
    intro cid hcid
    have := (List.mem_filter.mp hcid).2
    simpa [Option.isNone_iff_eq_none] using this
  obtain ⟨h3, h4⟩ := foldH_inv_ext hc _ _ h1 hnd hmiss
  exact ⟨h3, h2.etrans h4⟩

theorem reach_inv {u : Upstream} (hc : ConsistentU u) :
    ∀ {pm : PageMaps}, Reach u pm → MapsInv u pm := by
  intro pm hr
  induction hr with
  | start => exact mapsInv_empty u
  | fixStep ts ps _ ih => exact (inv_fix hc ih ts ps).1
  | getStep ts ps _ ih => exact (inv_get hc ih ts ps).1

theorem look_isSome_of_mem {α β : Type} [DecidableEq α]
    {l : List (α × β)} {k : α} {v : β} (h : (k, v) ∈ l) : (look l k).isSome := by
  induction l with
  | nil => simp at h
  | cons p t ih =>
    rcases List.mem_cons.mp h with h | h
    · rw [look_cons, ← h]
      simp
    · rw [look_cons]
      by_cases hpk : p.1 = k
      · simp [hpk]
      · simp [hpk]
        exact ih h

theorem id_look_of_mem {u : Upstream} {pm : PageMaps} (hinv : MapsInv u pm)
    {t : Title} {p : PageId} (h : (t, p) ∈ pm.id_map) :
    look pm.id_map t = some p := by
  have hs := look_isSome_of_mem h
  obtain ⟨p', hp'⟩ := Option.isSome_iff_exists.mp hs
  obtain ⟨i, hI, _, hpg, _⟩ := hinv.id_ok (t, p) h
  rw [hp']
  rw [id_forced hinv hI p' hp', hpg]

theorem resolvedT_mono {pm pm' : PageMaps} (he : ExtendsPM pm pm') {t : Title}
    (h : resolvedT pm t = true) : resolvedT pm' t = true := by
  unfold resolvedT at h ⊢
  rcases Bool.or_eq_true_iff.mp h with h | h
  · obtain ⟨p, hp⟩ := Option.isSome_iff_exists.mp h
    have := he.idm hp
    rw [Bool.or_eq_true_iff]
    left
    rw [this]
    rfl
  · rw [Bool.or_eq_true_iff]
    right
    cases hnm : look pm.norm_map t with
    | none =>
      rw [hnm] at h
      cases h
    | some n =>
      rw [hnm] at h
      change (look pm.id_map n).isSome = true at h
      obtain ⟨q, hq⟩ := Option.isSome_iff_exists.mp h
      rw [he.norm hnm]
      change (look pm'.id_map n).isSome = true
      rw [he.idm hq]
      rfl

theorem resolvedI_mono {u : Upstream} {pm pm' : PageMaps} (hinv : MapsInv u pm)
    (he : ExtendsPM pm pm') {p : PageId}
    (h : resolvedI pm p = true) : resolvedI pm' p = true := by
  unfold resolvedI at h ⊢
  obtain ⟨q, hq, hq2⟩ := List.any_eq_true.mp h
  have hq3 : q.2 = p := of_decide_eq_true hq2
  have hlook : look pm.id_map q.1 = some q.2 := by
    have : (q.1, q.2) = q := rfl
    rw [← this] at hq
    exact id_look_of_mem hinv hq
  refine List.any_eq_true.mpr ⟨(q.1, q.2), look_mem (he.idm hlook), ?_⟩
  simpa using hq3

theorem resolved_entries {u : Upstream} {pm : PageMaps}
    (hc : ConsistentU u) (hinv : MapsInv u pm) {t : Title}
    (hres : resolvedT pm t = true) :
    ∃ i, u.infoByTitle t = some i ∧
      (i.norm = t ∨ look pm.norm_map t = some i.norm) ∧
      look pm.id_map i.norm = some i.pageid ∧
      ∀ pr, i.canonical = some pr →
        look pm.titles_redirect_map i.norm = some pr.1 ∧
        look pm.pageids_redirect_map i.pageid = some pr.2 ∧
        look pm.id_map pr.1 = some pr.2 := by
  cases hid : look pm.id_map t with
  | some p =>
    obtain ⟨i, hI, hn, hp, hclos⟩ := idOK_of_look hinv hid
    refine ⟨i, hI, Or.inl hn, ?_, ?_⟩
    · rw [hn, hid, hp]
    · intro pr hpr
      obtain ⟨h1, h2, h3⟩ := hclos pr hpr
      rw [hn, hp]
      exact ⟨h1, h2, h3⟩
  | none =>
    cases hnm : look pm.norm_map t with
    | none =>
      unfold resolvedT at hres
      rw [hid, hnm] at hres
      cases hres
    | some n =>
      cases hid2 : look pm.id_map n with
      | none =>
        unfold resolvedT at hres
        rw [hid, hnm] at hres
        simp only [Option.isSome_none, Bool.false_or] at hres
        change (look pm.id_map n).isSome = true at hres
        rw [hid2] at hres
        cases hres
      | some q =>
        obtain ⟨i, hI, hn⟩ := normOK_of_look hinv hnm
        obtain ⟨i2, hI2, hn2, hp2, hclos2⟩ := idOK_of_look hinv hid2
        have hIn : u.infoByTitle n = some ⟨n, i.pageid, i.canonical⟩ := by
          have h := hc.norm_idem t i hI
          rw [hn] at h
          exact h
        have hi2 : i2 = ⟨n, i.pageid, i.canonical⟩ := by
          rw [hIn] at hI2
          cases hI2
          rfl
        refine ⟨i, hI, Or.inr (by rw [hn]), ?_, ?_⟩
        · rw [hn, hid2]
          have hpq : i.pageid = q := by
            rw [hi2] at hp2
            exact hp2
          rw [hpq]
        · intro pr hpr
          have hpr2 : i2.canonical = some pr := by
            rw [hi2]
            exact hpr
          obtain ⟨h1, h2, h3⟩ := hclos2 pr hpr2
          have hq : q = i.pageid := by
            rw [hi2] at hp2
            exact hp2.symm
          rw [hn]
          rw [hq] at h2
          exact ⟨h1, h2, h3⟩

theorem mergeTitle_id {u : Upstream} {pm : PageMaps}
    (hc : ConsistentU u) (hinv : MapsInv u pm) {t : Title}
    (hres : resolvedT pm t = true) : mergeTitle u pm t = pm := by
  obtain ⟨i, hI, hnorm, hid, hclos⟩ := resolved_entries hc hinv hres
  cases hC : i.canonical with
  | some pr =>
    obtain ⟨c, cid⟩ := pr
    obtain ⟨h1, h2, h3⟩ := hclos (c, cid) hC
    by_cases hN : i.norm = t
    · rw [mergeTitle_red_eq hI hC hN]
      rw [ins_of_look_eq h1, ins_of_look_eq h2, ins_of_look_eq hid, ins_of_look_eq h3]
    · rw [mergeTitle_red_ne hI hC hN]
      have hnm : look pm.norm_map t = some i.norm := by
        rcases hnorm with hnorm | hnorm
        · exact absurd hnorm hN
        · exact hnorm
      rw [ins_of_look_eq hnm, ins_of_look_eq h1, ins_of_look_eq h2,
        ins_of_look_eq hid, ins_of_look_eq h3]
  | none =>
    by_cases hN : i.norm = t
    · rw [mergeTitle_can_eq hI hC hN]
      rw [ins_of_look_eq hid]
    · rw [mergeTitle_can_ne hI hC hN]
      have hnm : look pm.norm_map t = some i.norm := by
        rcases hnorm with hnorm | hnorm
        · exact absurd hnorm hN
        · exact hnorm
      rw [ins_of_look_eq hnm, ins_of_look_eq hid]

theorem mergeId_id {u : Upstream} {pm : PageMaps}
    (hc : ConsistentU u) (hinv : MapsInv u pm) {p : PageId}
    (hres : resolvedI pm p = true) : mergeId u pm p = pm := by
  unfold resolvedI at hres
  obtain ⟨q, hq, hq2⟩ := List.any_eq_true.mp hres
  have hq3 : q.2 = p := of_decide_eq_true hq2
  have hmem : (q.1, p) ∈ pm.id_map := by
    have : (q.1, q.2) = q := rfl
    rw [← hq3, this]
    exact hq
  obtain ⟨i, hI, hn, hp, hclos⟩ := hinv.id_ok (q.1, p) hmem
  have hlook : look pm.id_map q.1 = some p := id_look_of_mem hinv hmem
  have hJ : u.infoById p = some ⟨q.1, i.canonical⟩ := by
    have h := hc.title_id q.1 i hI
    rw [hn, hp] at h
    exact h
  cases hC : i.canonical with
  | some pr =>
    obtain ⟨c, cid⟩ := pr
    have hJC : (⟨q.1, i.canonical⟩ : IdInfo).canonical = some (c, cid) := hC
    rw [mergeId_red hJ hJC]
    obtain ⟨h1, h2, h3⟩ := hclos (c, cid) hC
    show { pm with
      titles_redirect_map := ins pm.titles_redirect_map q.1 c
      pageids_redirect_map := ins pm.pageids_redirect_map p cid
      id_map := ins (ins pm.id_map q.1 p) c cid } = pm
    rw [ins_of_look_eq h1, ins_of_look_eq h2, ins_of_look_eq hlook, ins_of_look_eq h3]
  | none =>
    have hJC : (⟨q.1, i.canonical⟩ : IdInfo).canonical = none := hC
    rw [mergeId_can hJ hJC]
    show { pm with id_map := ins pm.id_map q.1 p } = pm
    rw [ins_of_look_eq hlook]

theorem mergeTitle_resolves {u : Upstream} {pm : PageMaps} {t : Title} {i : TitleInfo}
    (hI : u.infoByTitle t = some i) :
    resolvedT (mergeTitle u pm t) t = true := by
  cases hC : i.canonical with
  | some pr =>
    obtain ⟨c, cid⟩ := pr
    by_cases hN : i.norm = t
    · rw [mergeTitle_red_eq hI hC hN]
      unfold resolvedT
      rw [Bool.or_eq_true_iff]
      left
      show (look (ins (ins pm.id_map i.norm i.pageid) c cid) t).isSome = true
      rw [look_ins]
      by_cases htc : t = c
      · rw [if_pos htc]; rfl
      · rw [if_neg htc, look_ins, if_pos hN.symm]; rfl
    · rw [mergeTitle_red_ne hI hC hN]
      unfold resolvedT
      rw [Bool.or_eq_true_iff]
      right
      show (match look (ins pm.norm_map t i.norm) t with
        | some n => (look (ins (ins pm.id_map i.norm i.pageid) c cid) n).isSome
        | none => false) = true
      rw [look_ins, if_pos rfl]
      change (look (ins (ins pm.id_map i.norm i.pageid) c cid) i.norm).isSome = true
      rw [look_ins]
      by_cases hic : i.norm = c
      · rw [if_pos hic]; rfl
      · rw [if_neg hic, look_ins, if_pos rfl]; rfl
  | none =>
    by_cases hN : i.norm = t
    · rw [mergeTitle_can_eq hI hC hN]
      unfold resolvedT
      rw [Bool.or_eq_true_iff]
      left
      show (look (ins pm.id_map i.norm i.pageid) t).isSome = true
      rw [look_ins, if_pos hN.symm]
      rfl
    · rw [mergeTitle_can_ne hI hC hN]
      unfold resolvedT
      rw [Bool.or_eq_true_iff]
      right
      show (match look (ins pm.norm_map t i.norm) t with
        | some n => (look (ins pm.id_map i.norm i.pageid) n).isSome
        | none => false) = true
      rw [look_ins, if_pos rfl]
      change (look (ins pm.id_map i.norm i.pageid) i.norm).isSome = true
      rw [look_ins, if_pos rfl]
      rfl

theorem mergeId_resolves {u : Upstream} {pm : PageMaps} {p : PageId} {j : IdInfo}
    (hc : ConsistentU u) (hJ : u.infoById p = some j) :
    resolvedI (mergeId u pm p) p = true := by
  cases hC : j.canonical with
  | some pr =>
    obtain ⟨c, cid⟩ := pr
    have hT : u.infoByTitle j.title = some ⟨j.title, p, some (c, cid)⟩ := by
      have h := hc.id_title p j hJ
      rw [hC] at h
      exact h
    have hcfixI : u.infoById cid = some ⟨c, none⟩ := hc.canon_fixI p j hJ (c, cid) hC
    have hcfixT : u.infoByTitle c = some ⟨c, cid, none⟩ :=
      hc.id_title cid ⟨c, none⟩ hcfixI
    have hne : ¬ j.title = c := by
      intro h
      rw [← h] at hcfixT
      rw [hT] at hcfixT
      simp only [Option.some.injEq, TitleInfo.mk.injEq] at hcfixT
      exact Option.noConfusion hcfixT.2.2
    rw [mergeId_red hJ hC]
    unfold resolvedI
    have hlook : look (ins (ins pm.id_map j.title p) c cid) j.title = some p := by
      rw [look_ins, if_neg hne, look_ins, if_pos rfl]
    refine List.any_eq_true.mpr ⟨(j.title, p), ?_, by simp⟩
    show (j.title, p) ∈ (ins (ins pm.id_map j.title p) c cid)
    exact look_mem hlook
  | none =>
    rw [mergeId_can hJ hC]
    unfold resolvedI
    have hlook : look (ins pm.id_map j.title p) j.title = some p := by
      rw [look_ins, if_pos rfl]
    refine List.any_eq_true.mpr ⟨(j.title, p), ?_, by simp⟩
    show (j.title, p) ∈ (ins pm.id_map j.title p)
    exact look_mem hlook

theorem foldT_filter_absorb {u : Upstream} (hc : ConsistentU u) :
    ∀ (l : List Title) (pm0 pm : PageMaps), MapsInv u pm → ExtendsPM pm0 pm →
      ((l.filter (fun t => !(resolvedT pm0 t))).foldl (mergeTitle u) pm)
        = l.foldl (mergeTitle u) pm := by
  intro l
  induction l with
  | nil => intro pm0 pm _ _; rfl
  | cons a rest ih =>
    intro pm0 pm hinv he
    rw [List.filter_cons]
    by_cases hres : resolvedT pm0 a = true
    · rw [if_neg (by simp [hres])]
      rw [List.foldl_cons]
      rw [mergeTitle_id hc hinv (resolvedT_mono he hres)]
      exact ih pm0 pm hinv he
    · rw [if_pos (by simp [hres])]
      rw [List.foldl_cons, List.foldl_cons]
      exact ih pm0 (mergeTitle u pm a) (inv_mergeTitle hc hinv a)
        (he.etrans (exact_mergeTitle hc hinv a))

theorem foldI_filter_absorb {u : Upstream} (hc : ConsistentU u) :
    ∀ (l : List PageId) (pm0 pm : PageMaps), MapsInv u pm0 → MapsInv u pm →
      ExtendsPM pm0 pm →
      ((l.filter (fun p => !(resolvedI pm0 p))).foldl (mergeId u) pm)
        = l.foldl (mergeId u) pm := by
  intro l
  induction l with
  | nil => intro pm0 pm _ _ _; rfl
  | cons a rest ih =>
    intro pm0 pm hinv0 hinv he
    rw [List.filter_cons]
    by_cases hres : resolvedI pm0 a = true
    · rw [if_neg (by simp [hres])]
      rw [List.foldl_cons]
      rw [mergeId_id hc hinv (resolvedI_mono hinv0 he hres)]
      exact ih pm0 pm hinv0 hinv he
    · rw [if_pos (by simp [hres])]
      rw [List.foldl_cons, List.foldl_cons]
      exact ih pm0 (mergeId u pm a) hinv0 (inv_mergeId hc hinv a)
        (he.etrans (exact_mergeId hc hinv a))

theorem foldT_nub_absorb {u : Upstream} (hc : ConsistentU u) :
    ∀ (l seen : List Title) (pm : PageMaps), MapsInv u pm →
      (∀ s ∈ seen, resolvedT pm s = true ∨ u.infoByTitle s = none) →
      ((nubAux seen l).foldl (mergeTitle u) pm) = l.foldl (mergeTitle u) pm := by
  intro l
  induction l with
  | nil => intro seen pm _ _; rfl
  | cons a rest ih =>
    intro seen pm hinv hseen
    by_cases ha : a ∈ seen
    · rw [show nubAux seen (a :: rest) = nubAux seen rest from by simp [nubAux, ha]]
      rw [List.foldl_cons]
      have hmerge : mergeTitle u pm a = pm := by
        rcases hseen a ha with h | h
        · exact mergeTitle_id hc hinv h
        · exact mergeTitle_notfound h
      rw [hmerge]
      exact ih seen pm hinv hseen
    · rw [show nubAux seen (a :: rest) = a :: nubAux (a :: seen) rest from by
        simp [nubAux, ha]]
      rw [List.foldl_cons, List.foldl_cons]
      refine ih (a :: seen) (mergeTitle u pm a) (inv_mergeTitle hc hinv a) ?_
      intro s hs
      rcases List.mem_cons.mp hs with hs | hs
      · subst hs
        cases hI : u.infoByTitle s with
        | none => exact Or.inr rfl
        | some i => exact Or.inl (mergeTitle_resolves hI)
      · rcases hseen s hs with h | h
        · exact Or.inl (resolvedT_mono (exact_mergeTitle hc hinv a) h)
        · exact Or.inr h

theorem foldI_nub_absorb {u : Upstream} (hc : ConsistentU u) :
    ∀ (l seen : List PageId) (pm : PageMaps), MapsInv u pm →
      (∀ s ∈ seen, resolvedI pm s = true ∨ u.infoById s = none) →
      ((nubAux seen l).foldl (mergeId u) pm) = l.foldl (mergeId u) pm := by
  intro l
  induction l with
  | nil => intro seen pm _ _; rfl
  | cons a rest ih =>
    intro seen pm hinv hseen
    by_cases ha : a ∈ seen
    · rw [show nubAux seen (a :: rest) = nubAux seen rest from by simp [nubAux, ha]]
      rw [List.foldl_cons]
      have hmerge : mergeId u pm a = pm := by
        rcases hseen a ha with h | h
        · exact mergeId_id hc hinv h
        · exact mergeId_notfound h
      rw [hmerge]
      exact ih seen pm hinv hseen
    · rw [show nubAux seen (a :: rest) = a :: nubAux (a :: seen) rest from by
        simp [nubAux, ha]]
      rw [List.foldl_cons, List.foldl_cons]
      refine ih (a :: seen) (mergeId u pm a) (inv_mergeId hc hinv a) ?_
      intro s hs
      rcases List.mem_cons.mp hs with hs | hs
      · subst hs
        cases hJ : u.infoById s with
        | none => exact Or.inr rfl
        | some j => exact Or.inl (mergeId_resolves hc hJ)
      · rcases hseen s hs with h | h
        · exact Or.inl (resolvedI_mono hinv (exact_mergeId hc hinv a) h)
        · exact Or.inr h

theorem fix_titles_only {u : Upstream} {pm : PageMaps}
    (hc : ConsistentU u) (hinv : MapsInv u pm) (ts : List Title) :
    (fix_redirects u pm ts []).1 = ts.foldl (mergeTitle u) pm := by
  rw [fix_redirects_fst]
  show ((nub ([] : List PageId)).filter (fun p => !(resolvedI pm p))).foldl (mergeId u)
    (((nub ts).filter (fun t => !(resolvedT pm t))).foldl (mergeTitle u) pm)
      = ts.foldl (mergeTitle u) pm
  rw [show ((nub ([] : List PageId)).filter (fun p => !(resolvedI pm p))) = [] from rfl]
  rw [List.foldl_nil]
  rw [foldT_filter_absorb hc (nub ts) pm pm hinv (ExtendsPM.erefl pm)]
  exact foldT_nub_absorb hc ts [] pm hinv (by intro s hs; simp at hs)

theorem fix_ids_only {u : Upstream} {pm : PageMaps}
    (hc : ConsistentU u) (hinv : MapsInv u pm) (ps : List PageId) :
    (fix_redirects u pm [] ps).1 = ps.foldl (mergeId u) pm := by
  rw [fix_redirects_fst]
  show ((nub ps).filter (fun p => !(resolvedI pm p))).foldl (mergeId u)
    (((nub ([] : List Title)).filter (fun t => !(resolvedT pm t))).foldl (mergeTitle u) pm)
      = ps.foldl (mergeId u) pm
  rw [show ((nub ([] : List Title)).filter (fun t => !(resolvedT pm t))) = [] from rfl]
  rw [List.foldl_nil]
  rw [foldI_filter_absorb hc (nub ps) pm pm hinv hinv (ExtendsPM.erefl pm)]
  exact foldI_nub_absorb hc ps [] pm hinv (by intro s hs; simp at hs)

theorem foldT_resolves_mem {u : Upstream} (hc : ConsistentU u) :
    ∀ (l : List Title) (pm : PageMaps), MapsInv u pm →
      ∀ t ∈ l, (u.infoByTitle t).isSome = true →
        resolvedT (l.foldl (mergeTitle u) pm) t = true := by
  intro l
  induction l with
  | nil => intro pm _ t ht; simp at ht
  | cons a rest ih =>
    intro pm hinv t ht hsome
    rw [List.foldl_cons]
    rcases List.mem_cons.mp ht with ht | ht
    · subst ht
      obtain ⟨i, hI⟩ := Option.isSome_iff_exists.mp hsome
      have h1 : resolvedT (mergeTitle u pm t) t = true := mergeTitle_resolves hI
      have hinv2 := inv_mergeTitle hc hinv t
      exact resolvedT_mono (foldT_inv_ext hc rest (mergeTitle u pm t) hinv2).2 h1
    · exact ih (mergeTitle u pm a) (inv_mergeTitle hc hinv a) t ht hsome

theorem foldI_resolves_mem {u : Upstream} (hc : ConsistentU u) :
    ∀ (l : List PageId) (pm : PageMaps), MapsInv u pm →
      ∀ p ∈ l, (u.infoById p).isSome = true →
        resolvedI (l.foldl (mergeId u) pm) p = true := by
  intro l
  induction l with
  | nil => intro pm _ p hp; simp at hp
  | cons a rest ih =>
    intro pm hinv p hp hsome
    rw [List.foldl_cons]
    rcases List.mem_cons.mp hp with hp | hp
    · subst hp
      obtain ⟨j, hJ⟩ := Option.isSome_iff_exists.mp hsome
      have h1 : resolvedI (mergeId u pm p) p = true := mergeId_resolves hc hJ
      have hinv2 := inv_mergeId hc hinv p
      exact resolvedI_mono hinv2 (foldI_inv_ext hc rest (mergeId u pm p) hinv2).2 h1
    · exact ih (mergeId u pm a) (inv_mergeId hc hinv a) p hp hsome

theorem fix_resolves_titles {u : Upstream} {pm : PageMaps}
    (hc : ConsistentU u) (hinv : MapsInv u pm) (ts : List Title) (ps : List PageId) :
    ∀ t ∈ ts, (u.infoByTitle t).isSome = true →
      resolvedT (fix_redirects u pm ts ps).1 t = true := by
  intro t ht hsome
  rw [fix_redirects_fst]
  have hinvT := (foldT_inv_ext hc ((nub ts).filter (fun t => !(resolvedT pm t))) pm hinv).1
  have heI := (foldI_inv_ext hc ((nub ps).filter (fun p => !(resolvedI pm p)))
    (((nub ts).filter (fun t => !(resolvedT pm t))).foldl (mergeTitle u) pm) hinvT).2
  refine resolvedT_mono heI ?_
  by_cases hres : resolvedT pm t = true
  · exact resolvedT_mono
      (foldT_inv_ext hc ((nub ts).filter (fun t => !(resolvedT pm t))) pm hinv).2 hres
  · have htq : t ∈ (nub ts).filter (fun t => !(resolvedT pm t)) := by
      rw [List.mem_filter]
      exact ⟨mem_nub.mpr ht, by simp [hres]⟩
    exact foldT_resolves_mem hc _ pm hinv t htq hsome

theorem fix_resolves_ids {u : Upstream} {pm : PageMaps}
    (hc : ConsistentU u) (hinv : MapsInv u pm) (ts : List Title) (ps : List PageId) :
    ∀ p ∈ ps, (u.infoById p).isSome = true →
      resolvedI (fix_redirects u pm ts ps).1 p = true := by
  intro p hp hsome
  rw [fix_redirects_fst]
  have hinvT := (foldT_inv_ext hc ((nub ts).filter (fun t => !(resolvedT pm t))) pm hinv).1
  by_cases hres : resolvedI pm p = true
  · have h1 := resolvedI_mono hinv
      (foldT_inv_ext hc ((nub ts).filter (fun t => !(resolvedT pm t))) pm hinv).2 hres
    exact resolvedI_mono hinvT
      (foldI_inv_ext hc ((nub ps).filter (fun p => !(resolvedI pm p))) _ hinvT).2 h1
  · have hiq : p ∈ (nub ps).filter (fun p => !(resolvedI pm p)) := by
      rw [List.mem_filter]
      exact ⟨mem_nub.mpr hp, by simp [hres]⟩
    exact foldI_resolves_mem hc _ _ hinvT p hiq hsome

theorem fix_idempotent {u : Upstream} {pm : PageMaps}
    (hc : ConsistentU u) (hinv : MapsInv u pm) (ts : List Title) (ps : List PageId)
    (hts : ∀ t ∈ ts, (u.infoByTitle t).isSome = true)
    (hps : ∀ p ∈ ps, (u.infoById p).isSome = true) :
    fix_redirects u (fix_redirects u pm ts ps).1 ts ps
      = ((fix_redirects u pm ts ps).1, []) := by
  have htq : (nub ts).filter (fun t => !(resolvedT (fix_redirects u pm ts ps).1 t)) = [] := by
    rw [List.filter_eq_nil]
    intro t ht
    have := fix_resolves_titles hc hinv ts ps t (mem_nub.mp ht) (hts t (mem_nub.mp ht))
    simp [this]
  have hiq : (nub ps).filter (fun p => !(resolvedI (fix_redirects u pm ts ps).1 p)) = [] := by
    rw [List.filter_eq_nil]
    intro p hp
    have := fix_resolves_ids hc hinv ts ps p (mem_nub.mp hp) (hps p (mem_nub.mp hp))
    simp [this]
  have h1 : (fix_redirects u (fix_redirects u pm ts ps).1 ts ps).1
      = (fix_redirects u pm ts ps).1 := by
    rw [fix_redirects_fst u (fix_redirects u pm ts ps).1 ts ps, htq, hiq]
    rfl
  have h2 : (fix_redirects u (fix_redirects u pm ts ps).1 ts ps).2 = [] := by
    rw [fix_redirects_snd u (fix_redirects u pm ts ps).1 ts ps, htq, hiq]
    rfl
  rw [Prod.ext_iff]
  exact ⟨h1, h2⟩

theorem foldT_notfound {u : Upstream} :
    ∀ (l : List Title) (pm : PageMaps), (∀ t ∈ l, u.infoByTitle t = none) →
      l.foldl (mergeTitle u) pm = pm := by
  intro l
  induction l with
  | nil => intro pm _; rfl
  | cons a rest ih =>
    intro pm h
    rw [List.foldl_cons, mergeTitle_notfound (h a (List.mem_cons_self _ _))]
    exact ih pm (fun t ht => h t (List.mem_cons_of_mem _ ht))

theorem foldI_notfound {u : Upstream} :
    ∀ (l : List PageId) (pm : PageMaps), (∀ p ∈ l, u.infoById p = none) →
      l.foldl (mergeId u) pm = pm := by
  intro l
  induction l with
  | nil => intro pm _; rfl
  | cons a rest ih =>
    intro pm h
    rw [List.foldl_cons, mergeId_notfound (h a (List.mem_cons_self _ _))]
    exact ih pm (fun p hp => h p (List.mem_cons_of_mem _ hp))

theorem fix_state_idempotent {u : Upstream} {pm : PageMaps}
    (hc : ConsistentU u) (hinv : MapsInv u pm) (ts : List Title) (ps : List PageId) :
    (fix_redirects u (fix_redirects u pm ts ps).1 ts ps).1
      = (fix_redirects u pm ts ps).1 := by
  rw [fix_redirects_fst u (fix_redirects u pm ts ps).1 ts ps]
  have h1 : ∀ t ∈ (nub ts).filter
      (fun t => !(resolvedT (fix_redirects u pm ts ps).1 t)), u.infoByTitle t = none := by
    intro t ht
    have hmem := List.mem_filter.mp ht
    have hunres : ¬ resolvedT (fix_redirects u pm ts ps).1 t = true := by
      simpa using hmem.2
    cases hI : u.infoByTitle t with
    | none => rfl
    | some i =>
      exact absurd (fix_resolves_titles hc hinv ts ps t (mem_nub.mp hmem.1)
        (by rw [hI]; rfl)) hunres
  have h2 : ∀ p ∈ (nub ps).filter
      (fun p => !(resolvedI (fix_redirects u pm ts ps).1 p)), u.infoById p = none := by
    intro p hp
    have hmem := List.mem_filter.mp hp
    have hunres : ¬ resolvedI (fix_redirects u pm ts ps).1 p = true := by
      simpa using hmem.2
    cases hJ : u.infoById p with
    | none => rfl
    | some j =>
      exact absurd (fix_resolves_ids hc hinv ts ps p (mem_nub.mp hmem.1)
        (by rw [hJ]; rfl)) hunres
  rw [foldT_notfound _ _ h1, foldI_notfound _ _ h2]

/-- The canonical page ID reported for a queried title: the redirect
target ID when the upstream reports a redirect, otherwise the page ID of
the normalized title. -/
def tcanonId (i : TitleInfo) : PageId :=
  match i.canonical with
  | some pr => pr.2
  | none => i.pageid

theorem canon_of_resolved {u : Upstream} {pm : PageMaps}
    (hc : ConsistentU u) (hinv : MapsInv u pm) {a : Title} {ia : TitleInfo}
    (hI : u.infoByTitle a = some ia) (hres : resolvedT pm a = true) :
    canonTitle pm a = tcanon ia ∧
    look pm.id_map (tcanon ia) = some (tcanonId ia) := by
  obtain ⟨i, hI', hnorm, hid, hclos⟩ := resolved_entries hc hinv hres
  have hieq : i = ia := by
    rw [hI] at hI'
    cases hI'
    rfl
  subst hieq
  have hnormOf : normOf pm a = i.norm := by
    unfold normOf
    cases hnm : look pm.norm_map a with
    | none =>
      change a = i.norm
      rcases hnorm with h | h
      · exact h.symm
      · rw [hnm] at h
        cases h
    | some n =>
      change n = i.norm
      exact norm_forced hinv hI n hnm
  cases hC : i.canonical with
  | some pr =>
    obtain ⟨h1, h2, h3⟩ := hclos pr hC
    constructor
    · unfold canonTitle
      rw [hnormOf, h1]
      unfold tcanon
      rw [hC]
    · have htc : tcanon i = pr.1 := by unfold tcanon; rw [hC]
      have hti : tcanonId i = pr.2 := by unfold tcanonId; rw [hC]
      rw [htc, hti]
      exact h3
  | none =>
    have htc : tcanon i = i.norm := by unfold tcanon; rw [hC]
    have hti : tcanonId i = i.pageid := by unfold tcanonId; rw [hC]
    have hIn : u.infoByTitle i.norm = some ⟨i.norm, i.pageid, none⟩ := by
      have h := hc.norm_idem a i hI
      rw [hC] at h
      exact h
    constructor
    · unfold canonTitle
      rw [hnormOf, htc]
      cases htr : look pm.titles_redirect_map i.norm with
      | none => rfl
      | some w =>
        have := tred_forced hinv hIn w htr
        rw [this]
        rfl
    · rw [htc, hti]
      exact hid

theorem canonId_of_resolved {u : Upstream} {pm : PageMaps}
    (hc : ConsistentU u) (hinv : MapsInv u pm) {p : PageId} {j : IdInfo}
    (hJ : u.infoById p = some j) (hres : resolvedI pm p = true) :
    canonId pm p = icanon p j := by
  unfold resolvedI at hres
  obtain ⟨q, hq, hq2⟩ := List.any_eq_true.mp hres
  have hq3 : q.2 = p := of_decide_eq_true hq2
  have hmem : (q.1, p) ∈ pm.id_map := by
    have heta : (q.1, q.2) = q := rfl
    rw [← hq3, heta]
    exact hq
  obtain ⟨i, hI, hn, hp, hclos⟩ := hinv.id_ok (q.1, p) hmem
  have hJ2 : u.infoById p = some ⟨q.1, i.canonical⟩ := by
    have h := hc.title_id q.1 i hI
    rw [hn, hp] at h
    exact h
  have hjeq : j = ⟨q.1, i.canonical⟩ := by
    rw [hJ] at hJ2
    cases hJ2
    rfl
  cases hC : i.canonical with
  | some pr =>
    obtain ⟨h1, h2, h3⟩ := hclos pr hC
    unfold canonId
    rw [h2]
    rw [hjeq]
    unfold icanon
    rw [show (⟨q.1, i.canonical⟩ : IdInfo).canonical = some pr from hC]
  | none =>
    have hic : icanon p j = p := by
      rw [hjeq]
      unfold icanon
      rw [show (⟨q.1, i.canonical⟩ : IdInfo).canonical = none from hC]
    rw [hic]
    unfold canonId
    cases hpr : look pm.pageids_redirect_map p with
    | none => rfl
    | some w =>
      have := pred_forced hinv hJ w hpr
      rw [this, hic]

theorem mergeTitle_collT_eq {u : Upstream} {pm : PageMaps} (t : Title) :
    (mergeTitle u pm t).collected_title_redirects = pm.collected_title_redirects := by
  cases hI : u.infoByTitle t with
  | none => rw [mergeTitle_notfound hI]
  | some i =>
    cases hC : i.canonical with
    | some pr =>
      obtain ⟨c, cid⟩ := pr
      by_cases hN : i.norm = t
      · rw [mergeTitle_red_eq hI hC hN]
      · rw [mergeTitle_red_ne hI hC hN]
    | none =>
      by_cases hN : i.norm = t
      · rw [mergeTitle_can_eq hI hC hN]
      · rw [mergeTitle_can_ne hI hC hN]

theorem mergeTitle_collP_eq {u : Upstream} {pm : PageMaps} (t : Title) :
    (mergeTitle u pm t).collected_pageid_redirects = pm.collected_pageid_redirects := by
  cases hI : u.infoByTitle t with
  | none => rw [mergeTitle_notfound hI]
  | some i =>
    cases hC : i.canonical with
    | some pr =>
      obtain ⟨c, cid⟩ := pr
      by_cases hN : i.norm = t
      · rw [mergeTitle_red_eq hI hC hN]
      · rw [mergeTitle_red_ne hI hC hN]
    | none =>
      by_cases hN : i.norm = t
      · rw [mergeTitle_can_eq hI hC hN]
      · rw [mergeTitle_can_ne hI hC hN]

theorem mergeId_collT_eq {u : Upstream} {pm : PageMaps} (p : PageId) :
    (mergeId u pm p).collected_title_redirects = pm.collected_title_redirects := by
  cases hJ : u.infoById p with
  | none => rw [mergeId_notfound hJ]
  | some j =>
    cases hC : j.canonical with
    | some pr =>
      obtain ⟨c, cid⟩ := pr
      rw [mergeId_red hJ hC]
    | none => rw [mergeId_can hJ hC]

theorem mergeId_collP_eq {u : Upstream} {pm : PageMaps} (p : PageId) :
    (mergeId u pm p).collected_pageid_redirects = pm.collected_pageid_redirects := by
  cases hJ : u.infoById p with
  | none => rw [mergeId_notfound hJ]
  | some j =>
    cases hC : j.canonical with
    | some pr =>
      obtain ⟨c, cid⟩ := pr
      rw [mergeId_red hJ hC]
    | none => rw [mergeId_can hJ hC]

theorem foldT_collT_eq (u : Upstream) :
    ∀ (l : List Title) (pm : PageMaps),
      (l.foldl (mergeTitle u) pm).collected_title_redirects
        = pm.collected_title_redirects := by
  intro l
  induction l with
  | nil => intro pm; rfl
  | cons a rest ih =>
    intro pm
    rw [List.foldl_cons, ih, mergeTitle_collT_eq]

theorem foldT_collP_eq (u : Upstream) :
    ∀ (l : List Title) (pm : PageMaps),
      (l.foldl (mergeTitle u) pm).collected_pageid_redirects
        = pm.collected_pageid_redirects := by
  intro l
  induction l with
  | nil => intro pm; rfl
  | cons a rest ih =>
    intro pm
    rw [List.foldl_cons, ih, mergeTitle_collP_eq]

theorem foldI_collT_eq (u : Upstream) :
    ∀ (l : List PageId) (pm : PageMaps),
      (l.foldl (mergeId u) pm).collected_title_redirects
        = pm.collected_title_redirects := by
  intro l
  induction l with
  | nil => intro pm; rfl
  | cons a rest ih =>
    intro pm
    rw [List.foldl_cons, ih, mergeId_collT_eq]

theorem foldI_collP_eq (u : Upstream) :
    ∀ (l : List PageId) (pm : PageMaps),
      (l.foldl (mergeId u) pm).collected_pageid_redirects
        = pm.collected_pageid_redirects := by
  intro l
  induction l with
  | nil => intro pm; rfl
  | cons a rest ih =>
    intro pm
    rw [List.foldl_cons, ih, mergeId_collP_eq]

theorem fix_collT_eq (u : Upstream) (pm : PageMaps) (ts : List Title) (ps : List PageId) :
    (fix_redirects u pm ts ps).1.collected_title_redirects
      = pm.collected_title_redirects := by
  rw [fix_redirects_fst, foldI_collT_eq, foldT_collT_eq]

theorem fix_collP_eq (u : Upstream) (pm : PageMaps) (ts : List Title) (ps : List PageId) :
    (fix_redirects u pm ts ps).1.collected_pageid_redirects
      = pm.collected_pageid_redirects := by
  rw [fix_redirects_fst, foldI_collP_eq, foldT_collP_eq]

theorem fix_no_harv (u : Upstream) (pm : PageMaps) (ts : List Title) (ps : List PageId) :
    ∀ x, Query.harv x ∉ (fix_redirects u pm ts ps).2 := by
  intro x hmem
  rw [fix_redirects_snd] at hmem
  rcases List.mem_append.mp hmem with h | h
  · obtain ⟨t, _, ht⟩ := List.mem_map.mp h
    cases ht
  · obtain ⟨p, _, hp⟩ := List.mem_map.mp h
    cases hp

theorem get_skips_collected_title {u : Upstream} {pm : PageMaps}
    (hc : ConsistentU u) (hinv : MapsInv u pm) {a c : Title} {ia : TitleInfo}
    (hI : u.infoByTitle a = some ia) (htc : tcanon ia = c)
    {L : List Title} (hcoll : look pm.collected_title_redirects c = some L) :
    (get_redirects u pm [a] []).1.collected_title_redirects
      = pm.collected_title_redirects ∧
    (get_redirects u pm [a] []).1.collected_pageid_redirects
      = pm.collected_pageid_redirects ∧
    (∀ x, Query.harv x ∉ (get_redirects u pm [a] []).2) := by
  have hres : resolvedT (fix_redirects u pm [a] []).1 a = true :=
    fix_resolves_titles hc hinv [a] [] a (List.mem_singleton.mpr rfl)
      (by rw [hI]; rfl)
  have hinv1 : MapsInv u (fix_redirects u pm [a] []).1 := (inv_fix hc hinv [a] []).1
  have hcanon : canonTitle (fix_redirects u pm [a] []).1 a = c := by
    rw [(canon_of_resolved hc hinv1 hI hres).1, htc]
  have hcoll1 : look (fix_redirects u pm [a] []).1.collected_title_redirects c
      = some L := by
    rw [fix_collT_eq]
    exact hcoll
  have htcs : ((nub ((nub [a]).map (canonTitle (fix_redirects u pm [a] []).1))).filter
      (fun x => (look (fix_redirects u pm [a] []).1.collected_title_redirects x).isNone))
        = [] := by
    have h1 : (nub [a]).map (canonTitle (fix_redirects u pm [a] []).1)
        = [canonTitle (fix_redirects u pm [a] []).1 a] := rfl
    rw [h1, hcanon]
    have h2 : nub [c] = [c] := rfl
    rw [h2, List.filter_cons]
    rw [if_neg (by rw [hcoll1]; simp)]
    rfl
  have hmissing : ((nub ((((nub ((nub [a]).map (canonTitle (fix_redirects u pm [a] []).1))).filter
      (fun x => (look (fix_redirects u pm [a] []).1.collected_title_redirects x).isNone)).filterMap
        (fun x => look (fix_redirects u pm [a] []).1.id_map x)) ++
      (nub ([] : List PageId)).map (canonId (fix_redirects u pm [a] []).1))).filter
      (fun cid => (look (fix_redirects u pm [a] []).1.collected_pageid_redirects cid).isNone))
        = [] := by
    rw [htcs]
    rfl
  refine ⟨?_, ?_, ?_⟩
  · rw [get_redirects_fst, hmissing]
    rw [show (([] : List PageId).foldl (mergeHarvest u) (fix_redirects u pm [a] []).1)
      = (fix_redirects u pm [a] []).1 from rfl]
    rw [fix_collT_eq]
  · rw [get_redirects_fst, hmissing]
    rw [show (([] : List PageId).foldl (mergeHarvest u) (fix_redirects u pm [a] []).1)
      = (fix_redirects u pm [a] []).1 from rfl]
    rw [fix_collP_eq]
  · intro x hx
    rw [get_redirects_snd, hmissing] at hx
    rw [show (([] : List PageId).map Query.harv) = [] from rfl] at hx
    rw [List.append_nil] at hx
    exact fix_no_harv u pm [a] [] x hx

theorem get_skips_collected_id {u : Upstream} {pm : PageMaps}
    (hc : ConsistentU u) (hinv : MapsInv u pm) {p cid : PageId} {j : IdInfo}
    (hJ : u.infoById p = some j) (hic : icanon p j = cid)
    {M : List PageId} (hcoll : look pm.collected_pageid_redirects cid = some M) :
    (get_redirects u pm [] [p]).1.collected_title_redirects
      = pm.collected_title_redirects ∧
    (get_redirects u pm [] [p]).1.collected_pageid_redirects
      = pm.collected_pageid_redirects ∧
    (∀ x, Query.harv x ∉ (get_redirects u pm [] [p]).2) := by
  have hres : resolvedI (fix_redirects u pm [] [p]).1 p = true :=
    fix_resolves_ids hc hinv [] [p] p (List.mem_singleton.mpr rfl)
      (by rw [hJ]; rfl)
  have hinv1 : MapsInv u (fix_redirects u pm [] [p]).1 := (inv_fix hc hinv [] [p]).1
  have hcanon : canonId (fix_redirects u pm [] [p]).1 p = cid := by
    rw [canonId_of_resolved hc hinv1 hJ hres, hic]
  have hcoll1 : look (fix_redirects u pm [] [p]).1.collected_pageid_redirects cid
      = some M := by
    rw [fix_collP_eq]
    exact hcoll
  have hmissing : ((nub ((((nub ((nub ([] : List Title)).map
      (canonTitle (fix_redirects u pm [] [p]).1))).filter
      (fun x => (look (fix_redirects u pm [] [p]).1.collected_title_redirects x).isNone)).filterMap
        (fun x => look (fix_redirects u pm [] [p]).1.id_map x)) ++
      (nub [p]).map (canonId (fix_redirects u pm [] [p]).1))).filter
      (fun k => (look (fix_redirects u pm [] [p]).1.collected_pageid_redirects k).isNone))
        = [] := by
    have h1 : (nub [p]).map (canonId (fix_redirects u pm [] [p]).1)
        = [canonId (fix_redirects u pm [] [p]).1 p] := rfl
    rw [h1, hcanon]
    have h2 : ((nub ((nub ([] : List Title)).map
        (canonTitle (fix_redirects u pm [] [p]).1))).filter
      (fun x => (look (fix_redirects u pm [] [p]).1.collected_title_redirects x).isNone)).filterMap
        (fun x => look (fix_redirects u pm [] [p]).1.id_map x) = [] := rfl
    rw [h2]
    have h3 : nub (([] : List PageId) ++ [cid]) = [cid] := rfl
    rw [h3, List.filter_cons]
    rw [if_neg (by rw [hcoll1]; simp)]
    rfl
  refine ⟨?_, ?_, ?_⟩
  · rw [get_redirects_fst, hmissing]
    rw [show (([] : List PageId).foldl (mergeHarvest u) (fix_redirects u pm [] [p]).1)
      = (fix_redirects u pm [] [p]).1 from rfl]
    rw [fix_collT_eq]
  · rw [get_redirects_fst, hmissing]
    rw [show (([] : List PageId).foldl (mergeHarvest u) (fix_redirects u pm [] [p]).1)
      = (fix_redirects u pm [] [p]).1 from rfl]
    rw [fix_collP_eq]
  · intro x hx
    rw [get_redirects_snd, hmissing] at hx
    rw [show (([] : List PageId).map Query.harv) = [] from rfl] at hx
    rw [List.append_nil] at hx
    exact fix_no_harv u pm [] [p] x hx

theorem get_on_missing_title {u : Upstream} {pm : PageMaps}
    (hc : ConsistentU u) (hinv : MapsInv u pm) {a : Title} {ia : TitleInfo}
    (hI : u.infoByTitle a = some ia)
    (hcollT : look pm.collected_title_redirects (tcanon ia) = none)
    (hcollP : look pm.collected_pageid_redirects (tcanonId ia) = none) :
    (get_redirects u pm [a] []).1
      = mergeHarvest u (fix_redirects u pm [a] []).1 (tcanonId ia) ∧
    Query.harv (tcanonId ia) ∈ (get_redirects u pm [a] []).2 := by
  have hres : resolvedT (fix_redirects u pm [a] []).1 a = true :=
    fix_resolves_titles hc hinv [a] [] a (List.mem_singleton.mpr rfl)
      (by rw [hI]; rfl)
  have hinv1 : MapsInv u (fix_redirects u pm [a] []).1 := (inv_fix hc hinv [a] []).1
  obtain ⟨hcanon, hlookid⟩ := canon_of_resolved hc hinv1 hI hres
  have hcollT1 : look (fix_redirects u pm [a] []).1.collected_title_redirects (tcanon ia)
      = none := by
    rw [fix_collT_eq]
    exact hcollT
  have hcollP1 : look (fix_redirects u pm [a] []).1.collected_pageid_redirects (tcanonId ia)
      = none := by
    rw [fix_collP_eq]
    exact hcollP
  have htcs : ((nub ((nub [a]).map (canonTitle (fix_redirects u pm [a] []).1))).filter
      (fun x => (look (fix_redirects u pm [a] []).1.collected_title_redirects x).isNone))
        = [tcanon ia] := by
    have h1 : (nub [a]).map (canonTitle (fix_redirects u pm [a] []).1)
        = [canonTitle (fix_redirects u pm [a] []).1 a] := rfl
    rw [h1, hcanon]
    have h2 : nub [tcanon ia] = [tcanon ia] := rfl
    rw [h2, List.filter_cons]
    rw [if_pos (by rw [hcollT1]; rfl)]
    rfl
  have hmissing : ((nub ((((nub ((nub [a]).map (canonTitle (fix_redirects u pm [a] []).1))).filter
      (fun x => (look (fix_redirects u pm [a] []).1.collected_title_redirects x).isNone)).filterMap
        (fun x => look (fix_redirects u pm [a] []).1.id_map x)) ++
      (nub ([] : List PageId)).map (canonId (fix_redirects u pm [a] []).1))).filter
      (fun cid => (look (fix_redirects u pm [a] []).1.collected_pageid_redirects cid).isNone))
        = [tcanonId ia] := by
    rw [htcs]
    have h1 : ([tcanon ia].filterMap
        (fun x => look (fix_redirects u pm [a] []).1.id_map x)) = [tcanonId ia] := by
      rw [List.filterMap_cons]
      rw [hlookid]
      rfl
    rw [h1]
    have h2 : nub ([tcanonId ia] ++ (nub ([] : List PageId)).map
        (canonId (fix_redirects u pm [a] []).1)) = [tcanonId ia] := rfl
    rw [h2, List.filter_cons]
    rw [if_pos (by rw [hcollP1]; rfl)]
    rfl
  constructor
  · rw [get_redirects_fst, hmissing]
    rfl
  · rw [get_redirects_snd, hmissing]
    refine List.mem_append.mpr (Or.inr ?_)
    exact List.mem_map.mpr ⟨tcanonId ia, List.mem_singleton.mpr rfl, rfl⟩

theorem look_isSome_iff_mem_keys {α β : Type} [DecidableEq α]
    {l : List (α × β)} {k : α} :
    (look l k).isSome = true ↔ k ∈ l.map Prod.fst := by
  induction l with
  | nil => simp
  | cons p t ih =>
    by_cases hpk : p.1 = k
    · simp [look_cons, hpk]
    · simp only [look_cons, if_neg hpk, List.map_cons, List.mem_cons, ih]
      constructor
      · intro h; exact Or.inr h
      · rintro (h | h)
        · exact absurd h.symm hpk
        · exact h

/-- Key-set inclusion between two resolver states: every key of every
mapping of the first state is a key of the same mapping of the second. -/
structure KeysLe (pm pm' : PageMaps) : Prop where
  tred : ∀ k : Title, (look pm.titles_redirect_map k).isSome = true →
      (look pm'.titles_redirect_map k).isSome = true
  pred : ∀ k : PageId, (look pm.pageids_redirect_map k).isSome = true →
      (look pm'.pageids_redirect_map k).isSome = true
  norm : ∀ k : Title, (look pm.norm_map k).isSome = true →
      (look pm'.norm_map k).isSome = true
  idm : ∀ k : Title, (look pm.id_map k).isSome = true →
      (look pm'.id_map k).isSome = true
  collT : ∀ k : Title, (look pm.collected_title_redirects k).isSome = true →
      (look pm'.collected_title_redirects k).isSome = true
  collP : ∀ k : PageId, (look pm.collected_pageid_redirects k).isSome = true →
      (look pm'.collected_pageid_redirects k).isSome = true

theorem KeysLe.krefl (pm : PageMaps) : KeysLe pm pm :=
  ⟨fun _ h => h, fun _ h => h, fun _ h => h, fun _ h => h, fun _ h => h, fun _ h => h⟩

theorem KeysLe.ktrans {a b c : PageMaps} (h1 : KeysLe a b) (h2 : KeysLe b c) :
    KeysLe a c :=
  ⟨fun k h => h2.tred k (h1.tred k h), fun k h => h2.pred k (h1.pred k h),
   fun k h => h2.norm k (h1.norm k h), fun k h => h2.idm k (h1.idm k h),
   fun k h => h2.collT k (h1.collT k h), fun k h => h2.collP k (h1.collP k h)⟩

theorem keysLe_mergeTitle (u : Upstream) (pm : PageMaps) (t : Title) :
    KeysLe pm (mergeTitle u pm t) := by
  cases hI : u.infoByTitle t with
  | none => rw [mergeTitle_notfound hI]; exact KeysLe.krefl pm
  | some i =>
    cases hC : i.canonical with
    | some pr =>
      obtain ⟨c, cid⟩ := pr
      by_cases hN : i.norm = t
      · rw [mergeTitle_red_eq hI hC hN]
        exact ⟨fun k h => look_isSome_ins _ _ _ _ h, fun k h => look_isSome_ins _ _ _ _ h,
          fun k h => h, fun k h => look_isSome_ins _ _ _ _ (look_isSome_ins _ _ _ _ h),
          fun k h => h, fun k h => h⟩
      · rw [mergeTitle_red_ne hI hC hN]
        exact ⟨fun k h => look_isSome_ins _ _ _ _ h, fun k h => look_isSome_ins _ _ _ _ h,
          fun k h => look_isSome_ins _ _ _ _ h,
          fun k h => look_isSome_ins _ _ _ _ (look_isSome_ins _ _ _ _ h),
          fun k h => h, fun k h => h⟩
    | none =>
      by_cases hN : i.norm = t
      · rw [mergeTitle_can_eq hI hC hN]
        exact ⟨fun k h => h, fun k h => h, fun k h => h,
          fun k h => look_isSome_ins _ _ _ _ h, fun k h => h, fun k h => h⟩
      · rw [mergeTitle_can_ne hI hC hN]
        exact ⟨fun k h => h, fun k h => h, fun k h => look_isSome_ins _ _ _ _ h,
          fun k h => look_isSome_ins _ _ _ _ h, fun k h => h, fun k h => h⟩

theorem keysLe_mergeId (u : Upstream) (pm : PageMaps) (p : PageId) :
    KeysLe pm (mergeId u pm p) := by
  cases hJ : u.infoById p with
  | none => rw [mergeId_notfound hJ]; exact KeysLe.krefl pm
  | some j =>
    cases hC : j.canonical with
    | some pr =>
      obtain ⟨c, cid⟩ := pr
      rw [mergeId_red hJ hC]
      exact ⟨fun k h => look_isSome_ins _ _ _ _ h, fun k h => look_isSome_ins _ _ _ _ h,
        fun k h => h, fun k h => look_isSome_ins _ _ _ _ (look_isSome_ins _ _ _ _ h),
        fun k h => h, fun k h => h⟩
    | none =>
      rw [mergeId_can hJ hC]
      exact ⟨fun k h => h, fun k h => h, fun k h => h,
        fun k h => look_isSome_ins _ _ _ _ h, fun k h => h, fun k h => h⟩

theorem foldl_backfill_tred_isSome (c : Title) (cid : PageId)
    (al : List (Title × PageId)) (q : PageMaps) {k : Title}
    (h : (look q.titles_redirect_map k).isSome = true) :
    (look ((al.foldl (backfill c cid) q).titles_redirect_map) k).isSome = true := by
  obtain ⟨v, hv⟩ := Option.isSome_iff_exists.mp h
  rw [foldl_backfill_tred_some c cid al q hv]
  rfl

theorem foldl_backfill_pred_isSome (c : Title) (cid : PageId)
    (al : List (Title × PageId)) (q : PageMaps) {k : PageId}
    (h : (look q.pageids_redirect_map k).isSome = true) :
    (look ((al.foldl (backfill c cid) q).pageids_redirect_map) k).isSome = true := by
  obtain ⟨v, hv⟩ := Option.isSome_iff_exists.mp h
  rw [foldl_backfill_pred_some c cid al q hv]
  rfl

theorem foldl_backfill_idm_isSome (c : Title) (cid : PageId)
    (al : List (Title × PageId)) (q : PageMaps) {k : Title}
    (h : (look q.id_map k).isSome = true) :
    (look ((al.foldl (backfill c cid) q).id_map) k).isSome = true := by
  obtain ⟨v, hv⟩ := Option.isSome_iff_exists.mp h
  rw [foldl_backfill_idm_some c cid al q hv]
  rfl

theorem keysLe_mergeHarvest (u : Upstream) (pm : PageMaps) (cid : PageId) :
    KeysLe pm (mergeHarvest u pm cid) := by
  cases hH : u.harvest cid with
  | none => rw [mergeHarvest_notfound hH]; exact KeysLe.krefl pm
  | some hr =>
    obtain ⟨c, pairs⟩ := hr
    rw [mergeHarvest_some hH]
    refine ⟨?_, ?_, ?_, ?_, ?_, ?_⟩
    · intro k h
      exact foldl_backfill_tred_isSome c cid _ _ h
    · intro k h
      exact foldl_backfill_pred_isSome c cid _ _ h
    · intro k h
      rw [foldl_backfill_norm]
      exact h
    · intro k h
      exact foldl_backfill_idm_isSome c cid _ _ h
    · intro k h
      rw [foldl_backfill_collT]
      exact look_isSome_ins _ _ _ _ h
    · intro k h
      rw [foldl_backfill_collP]
      exact look_isSome_ins _ _ _ _ h

theorem keysLe_foldT (u : Upstream) :
    ∀ (l : List Title) (pm : PageMaps), KeysLe pm (l.foldl (mergeTitle u) pm) := by
  intro l
  induction l with
  | nil => intro pm; exact KeysLe.krefl pm
  | cons a rest ih =>
    intro pm
    rw [List.foldl_cons]
    exact (keysLe_mergeTitle u pm a).ktrans (ih (mergeTitle u pm a))

theorem keysLe_foldI (u : Upstream) :
    ∀ (l : List PageId) (pm : PageMaps), KeysLe pm (l.foldl (mergeId u) pm) := by
  intro l
  induction l with
  | nil => intro pm; exact KeysLe.krefl pm
  | cons a rest ih =>
    intro pm
    rw [List.foldl_cons]
    exact (keysLe_mergeId u pm a).ktrans (ih (mergeId u pm a))

theorem keysLe_foldH (u : Upstream) :
    ∀ (l : List PageId) (pm : PageMaps), KeysLe pm (l.foldl (mergeHarvest u) pm) := by
  intro l
  induction l with
  | nil => intro pm; exact KeysLe.krefl pm
  | cons a rest ih =>
    intro pm
    rw [List.foldl_cons]
    exact (keysLe_mergeHarvest u pm a).ktrans (ih (mergeHarvest u pm a))

theorem keysLe_fix (u : Upstream) (pm : PageMaps) (ts : List Title) (ps : List PageId) :
    KeysLe pm (fix_redirects u pm ts ps).1 := by
  rw [fix_redirects_fst]
  exact (keysLe_foldT u _ pm).ktrans (keysLe_foldI u _ _)

theorem keysLe_get (u : Upstream) (pm : PageMaps) (ts : List Title) (ps : List PageId) :
    KeysLe pm (get_redirects u pm ts ps).1 := by
  rw [get_redirects_fst]
  exact (keysLe_fix u pm ts ps).ktrans (keysLe_foldH u _ _)

theorem keysLe_runCalls (u : Upstream) :
    ∀ (cs : List Call) (pm : PageMaps), KeysLe pm (runCalls u pm cs) := by
  intro cs
  induction cs with
  | nil => intro pm; exact KeysLe.krefl pm
  | cons c rest ih =>
    intro pm
    show KeysLe pm (runCalls u (applyCall u pm c) rest)
    refine KeysLe.ktrans ?_ (ih (applyCall u pm c))
    cases c with
    | fix ts ps => exact keysLe_fix u pm ts ps
    | get ts ps => exact keysLe_get u pm ts ps

theorem keys_ins {α β : Type} [DecidableEq α] {l : List (α × β)} {k x : α} {v : β}
    (h : x ∈ (ins l k v).map Prod.fst) : x ∈ l.map Prod.fst ∨ x = k := by
  obtain ⟨q, hq, hx⟩ := List.mem_map.mp h
  rcases mem_ins hq with hq2 | hq2
  · exact Or.inl (hx ▸ List.mem_map.mpr ⟨q, hq2, rfl⟩)
  · right
    rw [← hx, hq2]

theorem ins_nodup_keys {α β : Type} [DecidableEq α] {l : List (α × β)} (k : α) (v : β)
    (h : (l.map Prod.fst).Nodup) : ((ins l k v).map Prod.fst).Nodup := by
  induction l with
  | nil => simp [ins_nil]
  | cons p t ih =>
    rw [List.map_cons, List.nodup_cons] at h
    by_cases hpk : p.1 = k
    · rw [ins_cons, if_pos hpk, List.map_cons, List.nodup_cons]
      refine ⟨?_, h.2⟩
      rw [← hpk]
      exact h.1
    · rw [ins_cons, if_neg hpk, List.map_cons, List.nodup_cons]
      refine ⟨?_, ih h.2⟩
      intro hmem
      rcases keys_ins hmem with h2 | h2
      · exact h.1 h2
      · exact hpk h2

theorem keys_insA {α β : Type} [DecidableEq α] {l : List (α × β)} {k x : α} {v : β}
    (h : x ∈ (insA l k v).map Prod.fst) : x ∈ l.map Prod.fst ∨ x = k := by
  obtain ⟨q, hq, hx⟩ := List.mem_map.mp h
  rcases mem_insA hq with hq2 | hq2
  · exact Or.inl (hx ▸ List.mem_map.mpr ⟨q, hq2, rfl⟩)
  · right
    rw [← hx, hq2]

theorem insA_nodup_keys {α β : Type} [DecidableEq α] {l : List (α × β)} (k : α) (v : β)
    (h : (l.map Prod.fst).Nodup) : ((insA l k v).map Prod.fst).Nodup := by
  induction l with
  | nil => simp [insA_nil]
  | cons p t ih =>
    rw [List.map_cons, List.nodup_cons] at h
    by_cases hpk : p.1 = k
    · rw [insA_cons, if_pos hpk, List.map_cons, List.nodup_cons]
      exact ⟨h.1, h.2⟩
    · rw [insA_cons, if_neg hpk, List.map_cons, List.nodup_cons]
      refine ⟨?_, ih h.2⟩
      intro hmem
      rcases keys_insA hmem with h2 | h2
      · exact h.1 h2
      · exact hpk h2

/-- Structural relations between the mappings that hold at every reachable
state, independently of upstream consistency: every titles_redirect_map
key is an id_map key, every collected_title_redirects key is a
titles_redirect_map key, and keys are duplicate-free. -/
structure StructInv (pm : PageMaps) : Prop where
  tred_sub : ∀ k : Title, (look pm.titles_redirect_map k).isSome = true →
      (look pm.id_map k).isSome = true
  collT_sub : ∀ k : Title, (look pm.collected_title_redirects k).isSome = true →
      (look pm.titles_redirect_map k).isSome = true
  nodupT : (pm.titles_redirect_map.map Prod.fst).Nodup
  nodupI : (pm.id_map.map Prod.fst).Nodup

theorem structInv_empty : StructInv emptyPM := by
  refine ⟨?_, ?_, ?_, ?_⟩ <;> simp [emptyPM]

theorem look_ins_isSome_split {α β : Type} [DecidableEq α]
    {l : List (α × β)} {k k' : α} {v : β}
    (h : (look (ins l k v) k').isSome = true) :
    k' = k ∨ (look l k').isSome = true := by
  rw [look_ins] at h
  by_cases hk : k' = k
  · exact Or.inl hk
  · rw [if_neg hk] at h
    exact Or.inr h

theorem structInv_mergeTitle (u : Upstream) (pm : PageMaps) (t : Title)
    (hs : StructInv pm) : StructInv (mergeTitle u pm t) := by
  cases hI : u.infoByTitle t with
  | none => rw [mergeTitle_notfound hI]; exact hs
  | some i =>
    cases hC : i.canonical with
    | some pr =>
      obtain ⟨c, cid⟩ := pr
      have core : ∀ nm : List (Title × Title), StructInv { pm with
          norm_map := nm
          titles_redirect_map := ins pm.titles_redirect_map i.norm c
          pageids_redirect_map := ins pm.pageids_redirect_map i.pageid cid
          id_map := ins (ins pm.id_map i.norm i.pageid) c cid } := by
        intro nm
        refine ⟨?_, ?_, ins_nodup_keys _ _ hs.nodupT,
          ins_nodup_keys _ _ (ins_nodup_keys _ _ hs.nodupI)⟩
        · intro k h
          rcases look_ins_isSome_split h with hk | hk
          · subst hk
            show (look (ins (ins pm.id_map i.norm i.pageid) c cid) i.norm).isSome = true
            rw [look_ins]
            by_cases hkc : i.norm = c
            · rw [if_pos hkc]; rfl
            · rw [if_neg hkc, look_ins, if_pos rfl]; rfl
          · exact look_isSome_ins _ _ _ _ (look_isSome_ins _ _ _ _ (hs.tred_sub k hk))
        · intro k h
          exact look_isSome_ins _ _ _ _ (hs.collT_sub k h)
      by_cases hN : i.norm = t
      · rw [mergeTitle_red_eq hI hC hN]
        exact core pm.norm_map
      · rw [mergeTitle_red_ne hI hC hN]
        exact core (ins pm.norm_map t i.norm)
    | none =>
      have core : ∀ nm : List (Title × Title), StructInv { pm with
          norm_map := nm
          id_map := ins pm.id_map i.norm i.pageid } := by
        intro nm
        refine ⟨?_, hs.collT_sub, hs.nodupT, ins_nodup_keys _ _ hs.nodupI⟩
        intro k h
        exact look_isSome_ins _ _ _ _ (hs.tred_sub k h)
      by_cases hN : i.norm = t
      · rw [mergeTitle_can_eq hI hC hN]
        exact core pm.norm_map
      · rw [mergeTitle_can_ne hI hC hN]
        exact core (ins pm.norm_map t i.norm)

theorem structInv_mergeId (u : Upstream) (pm : PageMaps) (p : PageId)
    (hs : StructInv pm) : StructInv (mergeId u pm p) := by
  cases hJ : u.infoById p with
  | none => rw [mergeId_notfound hJ]; exact hs
  | some j =>
    cases hC : j.canonical with
    | some pr =>
      obtain ⟨c, cid⟩ := pr
      rw [mergeId_red hJ hC]
      refine ⟨?_, ?_, ins_nodup_keys _ _ hs.nodupT,
        ins_nodup_keys _ _ (ins_nodup_keys _ _ hs.nodupI)⟩
      · intro k h
        rcases look_ins_isSome_split h with hk | hk
        · subst hk
          show (look (ins (ins pm.id_map j.title p) c cid) j.title).isSome = true
          rw [look_ins]
          by_cases hkc : j.title = c
          · rw [if_pos hkc]; rfl
          · rw [if_neg hkc, look_ins, if_pos rfl]; rfl
        · exact look_isSome_ins _ _ _ _ (look_isSome_ins _ _ _ _ (hs.tred_sub k hk))
      · intro k h
        exact look_isSome_ins _ _ _ _ (hs.collT_sub k h)
    | none =>
      rw [mergeId_can hJ hC]
      refine ⟨?_, hs.collT_sub, hs.nodupT, ins_nodup_keys _ _ hs.nodupI⟩
      intro k h
      exact look_isSome_ins _ _ _ _ (hs.tred_sub k h)

theorem foldl_backfill_tred_keys (c : Title) (cid : PageId) :
    ∀ (al : List (Title × PageId)) (q : PageMaps), ∀ pr ∈ al,
      (look ((al.foldl (backfill c cid) q).titles_redirect_map) pr.1).isSome = true := by
  intro al
  induction al with
  | nil => intro q pr hpr; simp at hpr
  | cons a rest ih =>
    intro q pr hpr
    rw [List.foldl_cons]
    rcases List.mem_cons.mp hpr with hpr | hpr
    · subst hpr
      refine foldl_backfill_tred_isSome c cid rest _ ?_
      show (look (insA q.titles_redirect_map pr.1 c) pr.1).isSome = true
      rw [look_insA, if_pos rfl]
      rfl
    · exact ih (backfill c cid q a) pr hpr

theorem foldl_backfill_idm_keys (c : Title) (cid : PageId) :
    ∀ (al : List (Title × PageId)) (q : PageMaps), ∀ pr ∈ al,
      (look ((al.foldl (backfill c cid) q).id_map) pr.1).isSome = true := by
  intro al
  induction al with
  | nil => intro q pr hpr; simp at hpr
  | cons a rest ih =>
    intro q pr hpr
    rw [List.foldl_cons]
    rcases List.mem_cons.mp hpr with hpr | hpr
    · subst hpr
      refine foldl_backfill_idm_isSome c cid rest _ ?_
      show (look (insA q.id_map pr.1 pr.2) pr.1).isSome = true
      rw [look_insA, if_pos rfl]
      rfl
    · exact ih (backfill c cid q a) pr hpr

theorem foldl_backfill_nodupT (c : Title) (cid : PageId) :
    ∀ (al : List (Title × PageId)) (q : PageMaps),
      (q.titles_redirect_map.map Prod.fst).Nodup →
      (((al.foldl (backfill c cid) q).titles_redirect_map).map Prod.fst).Nodup := by
  intro al
  induction al with
  | nil => intro q h; exact h
  | cons a rest ih =>
    intro q h
    rw [List.foldl_cons]
    exact ih (backfill c cid q a) (insA_nodup_keys _ _ h)

theorem foldl_backfill_nodupI (c : Title) (cid : PageId) :
    ∀ (al : List (Title × PageId)) (q : PageMaps),
      (q.id_map.map Prod.fst).Nodup →
      (((al.foldl (backfill c cid) q).id_map).map Prod.fst).Nodup := by
  intro al
  induction al with
  | nil => intro q h; exact h
  | cons a rest ih =>
    intro q h
    rw [List.foldl_cons]
    exact ih (backfill c cid q a) (insA_nodup_keys _ _ h)

theorem structInv_mergeHarvest (u : Upstream) (pm : PageMaps) (cid : PageId)
    (hs : StructInv pm) : StructInv (mergeHarvest u pm cid) := by
  cases hH : u.harvest cid with
  | none => rw [mergeHarvest_notfound hH]; exact hs
  | some hr =>
    obtain ⟨c, pairs⟩ := hr
    rw [mergeHarvest_some hH]
    refine ⟨?_, ?_, ?_, ?_⟩
    · intro k h
      obtain ⟨v, hv⟩ := Option.isSome_iff_exists.mp h
      rcases foldl_backfill_tred_mem c cid _ _ (look_mem hv) with hm | ⟨pr, hpr, hkv⟩
      · refine foldl_backfill_idm_isSome c cid _ _ ?_
        show (look pm.id_map k).isSome = true
        exact hs.tred_sub k (look_isSome_of_mem hm)
      · have hk : k = pr.1 := by
          have := congrArg Prod.fst hkv
          simpa using this
        rw [hk]
        exact foldl_backfill_idm_keys c cid _ _ pr hpr
    · intro k h
      rw [foldl_backfill_collT] at h
      rcases look_ins_isSome_split h with hk | hk
      · rw [hk]
        exact foldl_backfill_tred_keys c cid _ _ (c, cid) (List.mem_cons_self _ _)
      · refine foldl_backfill_tred_isSome c cid _ _ ?_
        show (look pm.titles_redirect_map k).isSome = true
        exact hs.collT_sub k hk
    · exact foldl_backfill_nodupT c cid _ _ hs.nodupT
    · exact foldl_backfill_nodupI c cid _ _ hs.nodupI

theorem structInv_foldT (u : Upstream) :
    ∀ (l : List Title) (pm : PageMaps), StructInv pm →
      StructInv (l.foldl (mergeTitle u) pm) := by
  intro l
  induction l with
  | nil => intro pm h; exact h
  | cons a rest ih =>
    intro pm h
    rw [List.foldl_cons]
    exact ih _ (structInv_mergeTitle u pm a h)

theorem structInv_foldI (u : Upstream) :
    ∀ (l : List PageId) (pm : PageMaps), StructInv pm →
      StructInv (l.foldl (mergeId u) pm) := by
  intro l
  induction l with
  | nil => intro pm h; exact h
  | cons a rest ih =>
    intro pm h
    rw [List.foldl_cons]
    exact ih _ (structInv_mergeId u pm a h)

theorem structInv_foldH (u : Upstream) :
    ∀ (l : List PageId) (pm : PageMaps), StructInv pm →
      StructInv (l.foldl (mergeHarvest u) pm) := by
  intro l
  induction l with
  | nil => intro pm h; exact h
  | cons a rest ih =>
    intro pm h
    rw [List.foldl_cons]
    exact ih _ (structInv_mergeHarvest u pm a h)

theorem structInv_fix (u : Upstream) (pm : PageMaps) (ts : List Title) (ps : List PageId)
    (hs : StructInv pm) : StructInv (fix_redirects u pm ts ps).1 := by
  rw [fix_redirects_fst]
  exact structInv_foldI u _ _ (structInv_foldT u _ pm hs)

theorem structInv_get (u : Upstream) (pm : PageMaps) (ts : List Title) (ps : List PageId)
    (hs : StructInv pm) : StructInv (get_redirects u pm ts ps).1 := by
  rw [get_redirects_fst]
  exact structInv_foldH u _ _ (structInv_fix u pm ts ps hs)

theorem reach_structInv {u : Upstream} :
    ∀ {pm : PageMaps}, Reach u pm → StructInv pm := by
  intro pm hr
  induction hr with
  | start => exact structInv_empty
  | fixStep ts ps _ ih => exact structInv_fix u _ ts ps ih
  | getStep ts ps _ ih => exact structInv_get u _ ts ps ih

theorem length_le_of_keys {α β γ : Type} [DecidableEq α]
    {l1 : List (α × β)} {l2 : List (α × γ)}
    (hnd : (l1.map Prod.fst).Nodup)
    (hsub : ∀ k, (look l1 k).isSome = true → (look l2 k).isSome = true) :
    l1.length ≤ l2.length := by
  have hsub2 : l1.map Prod.fst ⊆ l2.map Prod.fst := by
    intro x hx
    exact look_isSome_iff_mem_keys.mp (hsub x (look_isSome_iff_mem_keys.mpr hx))
  have hsp := hnd.subperm hsub2
  have := hsp.length_le
  rwa [List.length_map, List.length_map] at this

theorem consistent_mkUp (tT : List (Title × TitleInfo)) (tI : List (PageId × IdInfo))
    (tH : List (PageId × (Title × List (Title × PageId))))
    (h1 : (tT.all (fun q =>
      decide (look tT q.2.norm = some ⟨q.2.norm, q.2.pageid, q.2.canonical⟩))) = true)
    (h2 : (tT.all (fun q => match q.2.canonical with
        | some pr => decide (look tT pr.1 = some ⟨pr.1, pr.2, none⟩)
        | none => true)) = true)
    (h3 : (tT.all (fun q =>
      decide (look tI q.2.pageid = some ⟨q.2.norm, q.2.canonical⟩))) = true)
    (h4 : (tI.all (fun q =>
      decide (look tT q.2.title = some ⟨q.2.title, q.1, q.2.canonical⟩))) = true)
    (h5 : (tI.all (fun q => match q.2.canonical with
        | some pr => decide (look tI pr.2 = some ⟨pr.1, none⟩)
        | none => true)) = true)
    (h6 : (tH.all (fun q => decide (look tI q.1 = some ⟨q.2.1, none⟩))) = true)
    (h7 : (tH.all (fun q => q.2.2.all (fun pr =>
        decide (look tT pr.1 = some ⟨pr.1, pr.2, some (q.2.1, q.1)⟩)))) = true) :
    ConsistentU (mkUp tT tI tH) := by
  constructor
  · intro t i hti
    have hm : (t, i) ∈ tT := look_mem hti
    have := List.all_eq_true.mp h1 (t, i) hm
    exact of_decide_eq_true this
  · intro t i hti pr hpr
    have hm : (t, i) ∈ tT := look_mem hti
    have hq := List.all_eq_true.mp h2 (t, i) hm
    rw [show ((t, i) : Title × TitleInfo).2.canonical = i.canonical from rfl] at hq
    rw [hpr] at hq
    change decide (look tT pr.1 = some ⟨pr.1, pr.2, none⟩) = true at hq
    exact of_decide_eq_true hq
  · intro t i hti
    have hm : (t, i) ∈ tT := look_mem hti
    have := List.all_eq_true.mp h3 (t, i) hm
    exact of_decide_eq_true this
  · intro p j hpj
    have hm : (p, j) ∈ tI := look_mem hpj
    have := List.all_eq_true.mp h4 (p, j) hm
    exact of_decide_eq_true this
  · intro p j hpj pr hpr
    have hm : (p, j) ∈ tI := look_mem hpj
    have hq := List.all_eq_true.mp h5 (p, j) hm
    rw [show ((p, j) : PageId × IdInfo).2.canonical = j.canonical from rfl] at hq
    rw [hpr] at hq
    change decide (look tI pr.2 = some ⟨pr.1, none⟩) = true at hq
    exact of_decide_eq_true hq
  · intro cid hr hH
    have hm : (cid, hr) ∈ tH := look_mem hH
    have := List.all_eq_true.mp h6 (cid, hr) hm
    exact of_decide_eq_true this
  · intro cid hr hH pr hpr
    have hm : (cid, hr) ∈ tH := look_mem hH
    have hq := List.all_eq_true.mp h7 (cid, hr) hm
    have hq2 := List.all_eq_true.mp hq pr hpr
    exact of_decide_eq_true hq2

theorem demoU_consistent : ConsistentU demoU :=
  consistent_mkUp demoTitleTable demoIdTable demoHarvestTable
    (by decide) (by decide) (by decide) (by decide) (by decide) (by decide) (by decide)

theorem demoUCut_consistent : ConsistentU demoUCut :=
  consistent_mkUp demoTitleTable demoIdTable []
    (by decide) (by decide) (by decide) (by decide) (by decide) (by decide) (by decide)

/-- C1: starting from a fresh resolver, fix_redirects on the single title
uk, with the upstream reporting the normalization uk to Uk and the
redirect Uk to United Kingdom (page ID 641291 redirecting to 31717),
leaves norm_map equal to exactly the single entry uk to Uk,
titles_redirect_map containing the entry Uk to United Kingdom, and id_map
containing both Uk at 641291 and United Kingdom at 31717. -/
theorem c1_fix_redirects_uk_scenario :
    (fix_redirects demoU emptyPM ["uk"] []).1.norm_map = [("uk", "Uk")] ∧
    look (fix_redirects demoU emptyPM ["uk"] []).1.titles_redirect_map "Uk"
      = some "United Kingdom" ∧
    look (fix_redirects demoU emptyPM ["uk"] []).1.id_map "Uk" = some 641291 ∧
    look (fix_redirects demoU emptyPM ["uk"] []).1.id_map "United Kingdom"
      = some 31717 := by
  refine ⟨?_, ?_, ?_, ?_⟩ <;> decide

/-- C2 counterexample: even with a consistent upstream, a title the
upstream does not know stays unresolved after a first fix_redirects call,
so a second call with identical inputs issues an upstream query again (its
query list is not empty), refuting the claim that the second of two
identical calls always issues zero upstream queries. -/
theorem c2_counterexample :
    ConsistentU demoU ∧
    (fix_redirects demoU
        (fix_redirects demoU emptyPM ["No Such Page"] []).1
        ["No Such Page"] []).2 ≠ [] :=
  ⟨demoU_consistent, by decide⟩

/-- C2 (amended): with a consistent upstream and an agreeing resolver
state, calling fix_redirects a second time with inputs identical to a
completed first call always leaves all mappings exactly equal to their
state after the first call (inputs left unresolved by the first call are
exactly those the upstream reports as not found, and their merges are
no-ops), and it additionally issues zero upstream queries provided every
input was found upstream. Not-found inputs are re-queried on every call
(as the spec error-handling section itself states), which is the only
correction to the original claim. -/
theorem c2_fix_idempotent (u : Upstream) (pm : PageMaps)
    (ts : List Title) (ps : List PageId)
    (hc : ConsistentU u) (hinv : MapsInv u pm) :
    (fix_redirects u (fix_redirects u pm ts ps).1 ts ps).1
      = (fix_redirects u pm ts ps).1 ∧
    ((∀ t ∈ ts, (u.infoByTitle t).isSome = true) →
     (∀ p ∈ ps, (u.infoById p).isSome = true) →
     fix_redirects u (fix_redirects u pm ts ps).1 ts ps
       = ((fix_redirects u pm ts ps).1, [])) :=
  ⟨fix_state_idempotent hc hinv ts ps,
   fun hts hps => fix_idempotent hc hinv ts ps hts hps⟩

theorem c2_witness :
    (fix_redirects demoU (fix_redirects demoU emptyPM ["uk"] [31717]).1
        ["uk"] [31717]).1
      = (fix_redirects demoU emptyPM ["uk"] [31717]).1 ∧
    fix_redirects demoU (fix_redirects demoU emptyPM ["uk"] [31717]).1 ["uk"] [31717]
      = ((fix_redirects demoU emptyPM ["uk"] [31717]).1, []) :=
  ⟨(c2_fix_idempotent demoU emptyPM ["uk"] [31717]
      demoU_consistent (mapsInv_empty demoU)).1,
   (c2_fix_idempotent demoU emptyPM ["uk"] [31717]
      demoU_consistent (mapsInv_empty demoU)).2 (by decide) (by decide)⟩

/-- C4 counterexample: the state reached from a fresh resolver by
fix_redirects on uk followed by get_redirects on uk (with the consistent
demo upstream) has titles_redirect_map mapping Uk to United Kingdom while
United Kingdom is itself a key of titles_redirect_map (mapped to itself by
the harvest back-fill), so a stored value is itself a key, refuting the
claim that no value of titles_redirect_map is ever a key. -/
theorem c4_counterexample :
    ConsistentU demoU ∧
    Reach demoU
      (get_redirects demoU (fix_redirects demoU emptyPM ["uk"] []).1 ["uk"] []).1 ∧
    look (get_redirects demoU (fix_redirects demoU emptyPM ["uk"] []).1
        ["uk"] []).1.titles_redirect_map "Uk" = some "United Kingdom" ∧
    look (get_redirects demoU (fix_redirects demoU emptyPM ["uk"] []).1
        ["uk"] []).1.titles_redirect_map "United Kingdom"
      = some "United Kingdom" :=
  ⟨demoU_consistent,
   Reach.getStep ["uk"] [] (Reach.fixStep ["uk"] [] Reach.start),
   by decide, by decide⟩

/-- C4 (amended): at every reachable state under a consistent upstream, no
redirect chain passes through two distinct hops: whenever
titles_redirect_map maps t to c, the title c is either absent from
titles_redirect_map or mapped to itself. (The original claim fails because
a completed harvest back-fills the canonical title as a key mapping to
itself, as the demo notebook counts confirm; values can therefore be keys,
but only as fixed points.) -/
theorem c4_canonical_fixed_point (u : Upstream) (pm : PageMaps)
    (hc : ConsistentU u) (hr : Reach u pm) :
    ∀ t c, look pm.titles_redirect_map t = some c →
      look pm.titles_redirect_map c = none ∨
      look pm.titles_redirect_map c = some c := by
  intro t c hl
  have hinv := reach_inv hc hr
  obtain ⟨i, hI, hn, htc⟩ := tredOK_of_look hinv hl
  cases hcc : look pm.titles_redirect_map c with
  | none => exact Or.inl rfl
  | some d =>
    right
    obtain ⟨i', hI', hn', htc'⟩ := tredOK_of_look hinv hcc
    cases hC : i.canonical with
    | some pr =>
      have hceq : c = pr.1 := by
        rw [← htc]
        unfold tcanon
        rw [hC]
      have hIc : u.infoByTitle c = some ⟨c, pr.2, none⟩ := by
        have h := hc.canon_fixT t i hI pr hC
        rw [← hceq] at h
        exact h
      rw [hIc] at hI'
      cases hI'
      have hdc : d = c := htc'.symm
      rw [hdc]
    | none =>
      have hceq : c = i.norm := by
        rw [← htc]
        unfold tcanon
        rw [hC]
      have hIc : u.infoByTitle c = some ⟨c, i.pageid, none⟩ := by
        have h := hc.norm_idem t i hI
        rw [hC] at h
        rw [← hceq] at h
        exact h
      rw [hIc] at hI'
      cases hI'
      have hdc : d = c := htc'.symm
      rw [hdc]

theorem c4_witness :
    look (get_redirects demoU (fix_redirects demoU emptyPM ["uk"] []).1
        ["uk"] []).1.titles_redirect_map "United Kingdom" = none ∨
    look (get_redirects demoU (fix_redirects demoU emptyPM ["uk"] []).1
        ["uk"] []).1.titles_redirect_map "United Kingdom"
      = some "United Kingdom" :=
  c4_canonical_fixed_point demoU
    (get_redirects demoU (fix_redirects demoU emptyPM ["uk"] []).1 ["uk"] []).1
    demoU_consistent
    (Reach.getStep ["uk"] [] (Reach.fixStep ["uk"] [] Reach.start))
    "Uk" "United Kingdom" (by decide)

/-- C8: calling the caller-facing fix_redirects or get_redirects with
neither titles nor page IDs (both input lists empty) fails fast with the
invalid-argument error, before any upstream work and leaving the mappings
untouched (the error result carries no state and no queries); any call
with at least one input proceeds normally. -/
theorem c8_malformed_input (u : Upstream) (pm : PageMaps) :
    fix_redirects_checked u pm [] []
      = Except.error "invalid argument: no titles or pageids supplied" ∧
    get_redirects_checked u pm [] []
      = Except.error "invalid argument: no titles or pageids supplied" ∧
    (∀ (ts : List Title) (ps : List PageId), ¬ (ts = [] ∧ ps = []) →
      fix_redirects_checked u pm ts ps = Except.ok (fix_redirects u pm ts ps) ∧
      get_redirects_checked u pm ts ps = Except.ok (get_redirects u pm ts ps)) := by
  refine ⟨rfl, rfl, ?_⟩
  intro ts ps h
  unfold fix_redirects_checked get_redirects_checked
  rw [if_neg h, if_neg h]
  exact ⟨rfl, rfl⟩

/-- C3: once a canonical page's redirect set is a key of the collected
mappings, a further get_redirects call naming that page by any alias (a
title whose upstream canonical title is the collected page, or a page ID
whose upstream canonical ID is the collected page) issues no new harvest
query upstream and leaves the collected mappings unchanged. -/
theorem c3_collected_idempotent (u : Upstream) (pm : PageMaps)
    (a : Title) (ia : TitleInfo) (c : Title) (L : List Title)
    (p : PageId) (j : IdInfo) (cid : PageId) (M : List PageId)
    (hc : ConsistentU u) (hinv : MapsInv u pm)
    (hI : u.infoByTitle a = some ia) (htc : tcanon ia = c)
    (hcollT : look pm.collected_title_redirects c = some L)
    (hJ : u.infoById p = some j) (hic : icanon p j = cid)
    (hcollP : look pm.collected_pageid_redirects cid = some M) :
    ((get_redirects u pm [a] []).1.collected_title_redirects
        = pm.collected_title_redirects ∧
      (get_redirects u pm [a] []).1.collected_pageid_redirects
        = pm.collected_pageid_redirects ∧
      ∀ x, Query.harv x ∉ (get_redirects u pm [a] []).2) ∧
    ((get_redirects u pm [] [p]).1.collected_title_redirects
        = pm.collected_title_redirects ∧
      (get_redirects u pm [] [p]).1.collected_pageid_redirects
        = pm.collected_pageid_redirects ∧
      ∀ x, Query.harv x ∉ (get_redirects u pm [] [p]).2) :=
  ⟨get_skips_collected_title hc hinv hI htc hcollT,
   get_skips_collected_id hc hinv hJ hic hcollP⟩

/-- The demo state after fixing and harvesting uk, used as the concrete
state in several witnesses. -/
def demoState : PageMaps :=
  (get_redirects demoU (fix_redirects demoU emptyPM ["uk"] []).1 ["uk"] []).1

theorem demoState_inv : MapsInv demoU demoState :=
  (inv_get demoU_consistent
    ((inv_fix demoU_consistent (mapsInv_empty demoU) ["uk"] []).1) ["uk"] []).1

theorem c3_witness :
    ((get_redirects demoU demoState ["UK"] []).1.collected_title_redirects
        = demoState.collected_title_redirects ∧
      (get_redirects demoU demoState ["UK"] []).1.collected_pageid_redirects
        = demoState.collected_pageid_redirects ∧
      ∀ x, Query.harv x ∉ (get_redirects demoU demoState ["UK"] []).2) ∧
    ((get_redirects demoU demoState [] [641291]).1.collected_title_redirects
        = demoState.collected_title_redirects ∧
      (get_redirects demoU demoState [] [641291]).1.collected_pageid_redirects
        = demoState.collected_pageid_redirects ∧
      ∀ x, Query.harv x ∉ (get_redirects demoU demoState [] [641291]).2) :=
  c3_collected_idempotent demoU demoState
    "UK" ⟨"UK", 62029, some ("United Kingdom", 31717)⟩ "United Kingdom"
    ["United Kingdom", "Uk", "UK"]
    641291 ⟨"Uk", some ("United Kingdom", 31717)⟩ 31717
    [31717, 641291, 62029]
    demoU_consistent demoState_inv
    (by decide) (by decide) (by decide) (by decide) (by decide) (by decide)

/-- C5: at every reachable state under a consistent upstream, for every
canonical title c that is a key of collected_title_redirects whose page ID
p (as recorded in id_map) is a key of collected_pageid_redirects, the two
collected entries have equal length, and every alias title in the title
entry has its page ID recorded in id_map and contained in the ID entry. -/
theorem c5_cross_mapping_consistency (u : Upstream) (pm : PageMaps)
    (hc : ConsistentU u) (hr : Reach u pm) :
    ∀ (c : Title) (p : PageId) (L : List Title) (M : List PageId),
      look pm.collected_title_redirects c = some L →
      look pm.id_map c = some p →
      look pm.collected_pageid_redirects p = some M →
      L.length = M.length ∧
      ∀ a ∈ L, ∃ aid, look pm.id_map a = some aid ∧ aid ∈ M := by
  have hinv := reach_inv hc hr
  intro c p L M hcT hid hcP
  obtain ⟨cid, hr0, hid0, hH0, hc0, hL, hcp0, hall⟩ := collTOK_of_look hinv hcT
  have hcp : cid = p := by
    rw [hid0] at hid
    cases hid
    rfl
  subst hcp
  have hM : M = ((c, cid) :: hr0.2).map Prod.snd := by
    rw [hcp0] at hcP
    cases hcP
    rfl
  constructor
  · rw [hL, hM]
    rw [List.length_map, List.length_map]
  · intro a ha
    rw [hL] at ha
    obtain ⟨pr, hpr, hpra⟩ := List.mem_map.mp ha
    refine ⟨pr.2, ?_, ?_⟩
    · rw [← hpra]
      exact hall pr hpr
    · rw [hM]
      exact List.mem_map.mpr ⟨pr, hpr, rfl⟩

theorem c5_witness :
    (["United Kingdom", "Uk", "UK"] : List Title).length
        = ([31717, 641291, 62029] : List PageId).length ∧
    ∀ a ∈ (["United Kingdom", "Uk", "UK"] : List Title),
      ∃ aid, look demoState.id_map a = some aid ∧
        aid ∈ ([31717, 641291, 62029] : List PageId) :=
  c5_cross_mapping_consistency demoU demoState demoU_consistent
    (Reach.getStep ["uk"] [] (Reach.fixStep ["uk"] [] Reach.start))
    "United Kingdom" 31717 ["United Kingdom", "Uk", "UK"] [31717, 641291, 62029]
    (by decide) (by decide) (by decide)

/-- C6: over any sequence of fix_redirects and get_redirects calls, the
key set of each of the mappings only grows: every key present before the
sequence is present (in the same mapping) after it, so no operation ever
removes an entry. -/
theorem c6_monotonic_growth (u : Upstream) (pm : PageMaps) (cs : List Call) :
    KeysLe pm (runCalls u pm cs) :=
  keysLe_runCalls u cs pm

/-- C7: with a consistent upstream and an agreeing state, splitting the
title inputs of fix_redirects across two successive calls gives exactly
the same final mapping state as one combined call, and likewise for page
ID inputs: the final state does not depend on how the input set is split
across calls. -/
theorem c7_order_independence (u : Upstream) (pm : PageMaps)
    (ts1 ts2 : List Title) (ps1 ps2 : List PageId)
    (hc : ConsistentU u) (hinv : MapsInv u pm) :
    (fix_redirects u (fix_redirects u pm ts1 []).1 ts2 []).1
      = (fix_redirects u pm (ts1 ++ ts2) []).1 ∧
    (fix_redirects u (fix_redirects u pm [] ps1).1 [] ps2).1
      = (fix_redirects u pm [] (ps1 ++ ps2)).1 := by
  constructor
  · have h1 := fix_titles_only hc hinv ts1
    have hinv1 : MapsInv u (fix_redirects u pm ts1 []).1 := (inv_fix hc hinv ts1 []).1
    rw [fix_titles_only hc hinv1 ts2, h1, fix_titles_only hc hinv (ts1 ++ ts2)]
    rw [List.foldl_append]
  · have h1 := fix_ids_only hc hinv ps1
    have hinv1 : MapsInv u (fix_redirects u pm [] ps1).1 := (inv_fix hc hinv [] ps1).1
    rw [fix_ids_only hc hinv1 ps2, h1, fix_ids_only hc hinv (ps1 ++ ps2)]
    rw [List.foldl_append]

theorem c7_witness :
    (fix_redirects demoU (fix_redirects demoU emptyPM ["uk"] []).1 ["UK"] []).1
      = (fix_redirects demoU emptyPM (["uk"] ++ ["UK"]) []).1 ∧
    (fix_redirects demoU (fix_redirects demoU emptyPM [] [641291]).1 [] [31717]).1
      = (fix_redirects demoU emptyPM [] ([641291] ++ [31717])).1 :=
  c7_order_independence demoU emptyPM ["uk"] ["UK"] [641291] [31717]
    demoU_consistent (mapsInv_empty demoU)

/-- C9: if the paginated redirect harvest for the canonical page of an
input title is interrupted before its final page (the harvest returns
none), that canonical identity is left entirely absent from both collected
mappings, the harvest query was issued, and a retry issues the harvest
query again (it re-harvests from scratch rather than trusting a partial
entry). -/
theorem c9_partial_harvest (u : Upstream) (pm : PageMaps) (a : Title) (ia : TitleInfo)
    (hc : ConsistentU u) (hinv : MapsInv u pm)
    (hI : u.infoByTitle a = some ia)
    (hcut : u.harvest (tcanonId ia) = none)
    (hcollT : look pm.collected_title_redirects (tcanon ia) = none)
    (hcollP : look pm.collected_pageid_redirects (tcanonId ia) = none) :
    look (get_redirects u pm [a] []).1.collected_title_redirects (tcanon ia) = none ∧
    look (get_redirects u pm [a] []).1.collected_pageid_redirects (tcanonId ia) = none ∧
    Query.harv (tcanonId ia) ∈ (get_redirects u pm [a] []).2 ∧
    Query.harv (tcanonId ia) ∈ (get_redirects u (get_redirects u pm [a] []).1 [a] []).2 := by
  obtain ⟨hstate, hquery⟩ := get_on_missing_title hc hinv hI hcollT hcollP
  have hstate2 : (get_redirects u pm [a] []).1 = (fix_redirects u pm [a] []).1 := by
    rw [hstate, mergeHarvest_notfound hcut]
  have hT : look (get_redirects u pm [a] []).1.collected_title_redirects (tcanon ia)
      = none := by
    rw [hstate2, fix_collT_eq]
    exact hcollT
  have hP : look (get_redirects u pm [a] []).1.collected_pageid_redirects (tcanonId ia)
      = none := by
    rw [hstate2, fix_collP_eq]
    exact hcollP
  have hinv2 : MapsInv u (get_redirects u pm [a] []).1 := (inv_get hc hinv [a] []).1
  exact ⟨hT, hP, hquery, (get_on_missing_title hc hinv2 hI hT hP).2⟩

theorem c9_witness :
    look (get_redirects demoUCut emptyPM ["uk"] []).1.collected_title_redirects
      "United Kingdom" = none ∧
    look (get_redirects demoUCut emptyPM ["uk"] []).1.collected_pageid_redirects
      31717 = none ∧
    Query.harv 31717 ∈ (get_redirects demoUCut emptyPM ["uk"] []).2 ∧
    Query.harv 31717
      ∈ (get_redirects demoUCut (get_redirects demoUCut emptyPM ["uk"] []).1 ["uk"] []).2 :=
  c9_partial_harvest demoUCut emptyPM "uk" ⟨"Uk", 641291, some ("United Kingdom", 31717)⟩
    demoUCut_consistent (mapsInv_empty demoUCut)
    (by decide) (by decide) (by decide) (by decide)

/-- C10 counterexample: the reachable state built by fixing the canonical
title United Kingdom and then harvesting the redirect-free page Solo has a
completed harvest (collected_title_redirects holds the Solo entry) yet
titles_redirect_map holds 1 entry while id_map holds 2, refuting the claim
that the two maps hold the same number of entries after a completed
harvest. -/
theorem c10_counterexample :
    Reach demoU
      (get_redirects demoU (fix_redirects demoU emptyPM ["United Kingdom"] []).1
        ["Solo"] []).1 ∧
    look (get_redirects demoU (fix_redirects demoU emptyPM ["United Kingdom"] []).1
        ["Solo"] []).1.collected_title_redirects "Solo" = some ["Solo"] ∧
    (get_redirects demoU (fix_redirects demoU emptyPM ["United Kingdom"] []).1
        ["Solo"] []).1.titles_redirect_map.length
      ≠ (get_redirects demoU (fix_redirects demoU emptyPM ["United Kingdom"] []).1
        ["Solo"] []).1.id_map.length :=
  ⟨Reach.getStep ["Solo"] [] (Reach.fixStep ["United Kingdom"] [] Reach.start),
   by decide, by decide⟩

/-- C10 (amended): every canonical title whose redirect set was harvested
is present as a key of titles_redirect_map (not only as a value), and at
every reachable state titles_redirect_map never holds more entries than
id_map; the two counts coincide in the demo run (as witnessed by the
notebook status counts), namely after harvesting uk from a fresh resolver,
but not after every harvest, since titles previously resolved as
non-redirects are counted in id_map only. -/
theorem c10_redirects_vs_ids :
    (∀ (u : Upstream) (pm : PageMaps), Reach u pm →
      (∀ k, (look pm.collected_title_redirects k).isSome = true →
        (look pm.titles_redirect_map k).isSome = true) ∧
      pm.titles_redirect_map.length ≤ pm.id_map.length) ∧
    (demoState.titles_redirect_map.length = demoState.id_map.length ∧
     look demoState.titles_redirect_map "United Kingdom"
       = some "United Kingdom") := by
  constructor
  · intro u pm hr
    have hs := reach_structInv hr
    exact ⟨hs.collT_sub, length_le_of_keys hs.nodupT hs.tred_sub⟩
  · exact ⟨by decide, by decide⟩

theorem c10_witness :
    demoState.titles_redirect_map.length ≤ demoState.id_map.length :=
  (c10_redirects_vs_ids.1 demoU demoState
    (Reach.getStep ["uk"] [] (Reach.fixStep ["uk"] [] Reach.start))).2
